import Mathlib

/-!
Shallow embedding of the Minimal Version Selection (MVS) engine from
src/src/cmd_local/go/internal/mvs/mvs.go, together with proofs about it.

The Go code explores the requirement graph with a deduplicated parallel
work queue; ordering of worker interleavings does not affect the result
(the spec requires this), and the embedding fixes the canonical FIFO
schedule: items are processed in the order they were added, each exactly
once.  Recursive and looping code is given explicit fuel; running out of
fuel is a distinguished error, so a successful (ok) result always means
the corresponding Go code ran to completion.
-/

namespace MVS

/-- A module version pair, mirroring module.Version from the Go sources. -/
structure Version where
  path : String
  version : String
deriving DecidableEq, Repr

/-- The requirement provider, mirroring the Reqs interface of mvs.go.
Provider failures are carried as strings. -/
structure Reqs where
  required : Version → Except String (List Version)
  max : String → String → String
  upgrade : Version → Except String Version
  previous : Version → Except String Version

/-- Association list lookup keyed by decidable equality, first match wins. -/
def lookupA {α β : Type} [DecidableEq α] (k : α) : List (α × β) → Option β
  | [] => none
  | (a, b) :: t => if a = k then some b else lookupA k t

/-- Association list update: replace the first binding of the key in place,
or append a new binding at the end when the key is absent. -/
def setA {α β : Type} [DecidableEq α] (k : α) (v : β) : List (α × β) → List (α × β)
  | [] => [(k, v)]
  | (a, b) :: t => if a = k then (k, v) :: t else (a, b) :: setA k v t

/-- One vertex of the explored module graph, mirroring modGraphNode of
mvs.go.  The upgrade field uses the Go zero value (empty path and version)
to mean unset, exactly as the source does. -/
structure Node where
  m : Version
  required : List Version
  upgrade : Version
  err : Option String
deriving DecidableEq, Repr

/-- The unset upgrade field (the Go zero value of module.Version). -/
def noVersion : Version := ⟨"", ""⟩

/-- Shared exploration state: the module graph, the per-path running
maximum (the min map of mvs.go), and the global error flag. -/
structure ExpSt where
  graph : List (Version × Node)
  minM : List (String × String)
  haveErr : Bool
deriving Repr

/-- Result of processing one vertex: the updated per-path maxima, the new
node, the items to enqueue, and whether an error was recorded. -/
structure StepOut where
  minM : List (String × String)
  node : Node
  items : List Version
  errd : Bool

/-- The per-path maximum update performed under the mutex in mvs.go lines
111 to 115: skipped entirely for the sentinel version none. -/
def updateMin (reqs : Reqs) (minM : List (String × String)) (m : Version) :
    List (String × String) :=
  if m.version = "none" then minM
  else
    match lookupA m.path minM with
    | none => setA m.path m.version minM
    | some v => if reqs.max v m.version ≠ v then setA m.path m.version minM else minM

/-- The upgrade stage of the worker body (mvs.go lines 130 to 140). -/
def stepUpgrade (upg : Option (Version → Except String Version)) (m : Version)
    (minM : List (String × String)) (node : Node) (items : List Version) : StepOut :=
  match upg with
  | none => ⟨minM, node, items, false⟩
  | some f =>
    match f m with
    | .error e => ⟨minM, { node with err := some e }, items, true⟩
    | .ok u =>
      if u = m then ⟨minM, node, items, false⟩
      else ⟨minM, { node with upgrade := u }, items ++ [u], false⟩

/-- The whole worker body of mvs.go lines 105 to 141 for one new vertex:
register the node, fold the version into the per-path maxima (unless it is
none), fetch the requirements (unless the version is none), and run the
optional upgrade hook.  A required failure records the error and stops the
body before the upgrade stage; an upgrade failure records the error after
the requirements were already scheduled. -/
def processVertex (reqs : Reqs) (upg : Option (Version → Except String Version))
    (minM : List (String × String)) (m : Version) : StepOut :=
  let minM1 := updateMin reqs minM m
  if m.version = "none" then
    stepUpgrade upg m minM1 ⟨m, [], noVersion, none⟩ []
  else
    match reqs.required m with
    | .error e => ⟨minM1, ⟨m, [], noVersion, some e⟩, [], true⟩
    | .ok l => stepUpgrade upg m minM1 ⟨m, l, noVersion, none⟩ l

/-- The deduplicated work queue drained sequentially in FIFO order: an item
already present in the graph map was processed before and is skipped. -/
def explore (reqs : Reqs) (upg : Option (Version → Except String Version)) :
    Nat → List Version → ExpSt → Option ExpSt
  | 0, _, _ => none
  | _ + 1, [], st => some st
  | fuel + 1, m :: rest, st =>
    match lookupA m st.graph with
    | some _ => explore reqs upg fuel rest st
    | none =>
      let so := processVertex reqs upg st.minM m
      explore reqs upg fuel (rest ++ so.items)
        ⟨st.graph ++ [(m, so.node)], so.minM, st.haveErr || so.errd⟩

/-- Modelled from the spec: the typed build list error produced by
NewBuildListError (whose defining file is not part of src/).  Per the spec
it carries the wrapped inner error, errPath from the root to the failing
vertex, and the upgraded-by annotations backing the isUpgrade predicate. -/
structure BuildListErrorInfo where
  inner : String
  errPath : List Version
  upgrades : List (Version × Version)
deriving DecidableEq, Repr

/-- Every failure mode of the embedded operations.  A Go panic is kept
distinct from returned errors; outOfFuel signals that the fuel bound was
hit before the modelled code finished. -/
inductive MvsError where
  | plain : String → MvsError
  | buildListE : BuildListErrorInfo → MvsError
  | panicked : String → MvsError
  | outOfFuel : MvsError
deriving DecidableEq, Repr

/-- Neighbors of a node during the error-path BFS (mvs.go lines 181 to
184): the required list plus the upgrade target when its path is nonempty. -/
def nbNeighbors (node : Node) : List Version :=
  node.required ++ (if node.upgrade.path ≠ "" then [node.upgrade] else [])

/-- One BFS expansion step: discover each neighbor that exists in the graph
and has no neededBy entry yet, recording the current vertex as its first
discoverer and appending it to the queue (mvs.go lines 185 to 192). -/
def addNB (graph : List (Version × Node)) (parent : Version) :
    List Version → List (Version × Version) → List Version →
    List (Version × Version) × List Version
  | [], nb, qadd => (nb, qadd)
  | w :: ws, nb, qadd =>
    match lookupA w graph with
    | none => addNB graph parent ws nb qadd
    | some _ =>
      match lookupA w nb with
      | some _ => addNB graph parent ws nb qadd
      | none => addNB graph parent ws (nb ++ [(w, parent)]) (qadd ++ [w])

/-- The backwards walk from the failing vertex along neededBy entries
(mvs.go lines 160 to 166), accumulating the reversed error path and the
upgraded-by annotations. -/
def backPath (graph : List (Version × Node)) (nb : List (Version × Version)) :
    Nat → Version → List Version → List (Version × Version) →
    Option (List Version × List (Version × Version))
  | 0, _, _, _ => none
  | fuel + 1, cur, acc, ups =>
    match lookupA cur nb with
    | none => some (acc, ups)
    | some parent =>
      let ups1 :=
        match lookupA parent graph with
        | some pnode => if pnode.upgrade = cur then ups ++ [(parent, cur)] else ups
        | none => ups
      backPath graph nb fuel parent (acc ++ [parent]) ups1

/-- The error-path reporter BFS of mvs.go lines 145 to 193.  The outer
option is fuel exhaustion; the inner option is none when the queue drains
without meeting a failed vertex (the Go loop then falls through). -/
def errWalk (graph : List (Version × Node)) :
    Nat → List Version → List (Version × Version) →
    Option (Option BuildListErrorInfo)
  | 0, _, _ => none
  | _ + 1, [], _ => some none
  | fuel + 1, mv :: rest, nb =>
    match lookupA mv graph with
    | none => errWalk graph fuel rest nb
    | some node =>
      match node.err with
      | some e =>
        match backPath graph nb fuel mv [mv] [] with
        | none => none
        | some (pathRev, ups) => some (some ⟨e, pathRev.reverse, ups⟩)
      | none =>
        let (nb1, qadd) := addNB graph mv (nbNeighbors node) nb []
        errWalk graph fuel (rest ++ qadd) nb1

/-- Lexicographic comparison of character lists by code point, the order
Go uses on path strings (byte comparison; identical on the ASCII paths in
play).  Defined from scratch so that it evaluates inside the kernel. -/
def charsLe : List Char → List Char → Bool
  | [], _ => true
  | _ :: _, [] => false
  | c :: cs, d :: ds =>
    if c.toNat < d.toNat then true
    else if d.toNat < c.toNat then false
    else charsLe cs ds

/-- Lexicographic comparison of strings. -/
def strLe (a b : String) : Bool := charsLe a.data b.data

/-- Sorting relation of the finalizer: compare entries by path. -/
def byPath (a b : Version) : Prop := strLe a.path b.path = true

instance : DecidableRel byPath :=
  fun a b => inferInstanceAs (Decidable (strLe a.path b.path = true))

/-- Path-sorted copy of a list, the finalizer sort of mvs.go lines 225 to
228 (the comparator orders by path; entries of a successful run have
pairwise distinct paths, so any correct sort yields this unique result). -/
def sortByPath (l : List Version) : List Version := List.insertionSort byPath l

/-- Whether one requirement of a selected module passes the finalizer
check of mvs.go lines 214 to 222. -/
def reqOK (reqs : Reqs) (minM : List (String × String)) (tpath : String)
    (r : Version) : Bool :=
  if r.version = "none" then true
  else if r.path = tpath then true
  else
    let v := (lookupA r.path minM).getD ""
    decide (reqs.max v r.version = v)

/-- Whether one selected entry passes the finalizer check: every
requirement of its graph node must be dominated by the selected versions. -/
def entryOK (reqs : Reqs) (st : ExpSt) (tpath : String) (pv : String × String) : Bool :=
  let node := (lookupA (⟨pv.1, pv.2⟩ : Version) st.graph).getD ⟨⟨pv.1, pv.2⟩, [], noVersion, none⟩
  node.required.all (reqOK reqs st.minM tpath)

/-- The build list finalizer of mvs.go lines 196 to 229: assert the target
kept its own version, assert every requirement of every selected module is
dominated, and emit the target followed by the path-sorted selection. -/
def finalize (target : Version) (reqs : Reqs) (st : ExpSt) :
    Except MvsError (List Version) :=
  if (lookupA target.path st.minM).getD "" ≠ target.version then
    .error (.panicked "mistake: chose a version other than the target")
  else if ¬ st.minM.all (fun pv => entryOK reqs st target.path pv) then
    .error (.panicked "mistake: a version does not satisfy a requirement")
  else
    .ok (target ::
      sortByPath ((st.minM.filter (fun pv => pv.1 ≠ target.path)).map
        (fun pv => (⟨pv.1, pv.2⟩ : Version))))

/-- The buildList function of mvs.go lines 83 to 230: explore, then on any
recorded error run the BFS reporter and return the typed build list error,
otherwise finalize. -/
def buildList (target : Version) (reqs : Reqs)
    (upg : Option (Version → Except String Version)) (fuel : Nat) :
    Except MvsError (List Version) :=
  match explore reqs upg fuel [target] ⟨[], [], false⟩ with
  | none => .error .outOfFuel
  | some st =>
    if st.haveErr then
      match errWalk st.graph fuel [target] [] with
      | none => .error .outOfFuel
      | some (some info) => .error (.buildListE info)
      | some none => finalize target reqs st
    else finalize target reqs st

/-- BuildList of mvs.go line 79: buildList without an upgrade hook. -/
def BuildList (target : Version) (reqs : Reqs) (fuel : Nat) :
    Except MvsError (List Version) :=
  buildList target reqs none fuel

/-- Keys of an association list. -/
def keysA {α β : Type} (l : List (α × β)) : List α := l.map Prod.fst

/-- The recursive cached walk of Req (mvs.go lines 249 to 272), presented
on lists: visit each pending module; a cached module is skipped, otherwise
its requirements are fetched (propagating failure), cached, walked
recursively, and the module is appended to the postorder. -/
def walkPosts (reqs : Reqs) :
    Nat → List Version → List (Version × List Version) → List Version →
    Except MvsError (List (Version × List Version) × List Version)
  | 0, _, _, _ => .error .outOfFuel
  | _ + 1, [], cache, post => .ok (cache, post)
  | fuel + 1, m :: ms, cache, post =>
    match lookupA m cache with
    | some _ => walkPosts reqs fuel ms cache post
    | none =>
      match reqs.required m with
      | .error e => .error (.plain e)
      | .ok l =>
        match walkPosts reqs fuel l (cache ++ [(m, l)]) post with
        | .error e => .error e
        | .ok (c2, p2) => walkPosts reqs fuel ms c2 (p2 ++ [m])

/-- The marking walk of Req (mvs.go lines 276 to 285), on lists: mark each
pending module as covered, then recursively mark its cached requirements. -/
def walkHave (cache : List (Version × List Version)) :
    Nat → List Version → List Version → Except MvsError (List Version)
  | 0, _, _ => .error .outOfFuel
  | _ + 1, [], h => .ok h
  | fuel + 1, m :: ms, h =>
    if m ∈ h then walkHave cache fuel ms h
    else
      match walkHave cache fuel ((lookupA m cache).getD []) (h ++ [m]) with
      | .error e => .error e
      | .ok h2 => walkHave cache fuel ms h2

/-- The per-path maximum of a finished build list (mvs.go lines 286 to
293). -/
def buildMaxM (reqs : Reqs) (list : List Version) : List (String × String) :=
  list.foldl
    (fun acc m =>
      match lookupA m.path acc with
      | some v => setA m.path (reqs.max m.version v) acc
      | none => setA m.path m.version acc)
    []

/-- The base walk of Req (mvs.go lines 295 to 300): emit one entry per
base path at its maximal version and mark its transitive requirements. -/
def baseLoop (cache : List (Version × List Version)) (maxM : List (String × String)) :
    Nat → List String → List Version → List Version →
    Except MvsError (List Version × List Version)
  | 0, _, _, _ => .error .outOfFuel
  | _ + 1, [], acc, h => .ok (acc, h)
  | fuel + 1, p :: ps, acc, h =>
    let m : Version := ⟨p, (lookupA p maxM).getD ""⟩
    match walkHave cache fuel [m] h with
    | .error e => .error e
    | .ok h2 => baseLoop cache maxM fuel ps (acc ++ [m]) h2

/-- The reverse postorder sweep of Req (mvs.go lines 301 to 312), given
the already reversed postorder: skip superseded versions and modules
already covered; otherwise emit the module and mark it together with its
cached transitive requirements. -/
def extrasLoop (cache : List (Version × List Version)) (maxM : List (String × String)) :
    Nat → List Version → List Version → List Version →
    Except MvsError (List Version × List Version)
  | 0, _, _, _ => .error .outOfFuel
  | _ + 1, [], acc, h => .ok (acc, h)
  | fuel + 1, m :: ms, acc, h =>
    if (lookupA m.path maxM).getD "" ≠ m.version then
      extrasLoop cache maxM fuel ms acc h
    else if m ∈ h then
      extrasLoop cache maxM fuel ms acc h
    else
      match walkHave cache fuel [m] h with
      | .error e => .error e
      | .ok h2 => extrasLoop cache maxM fuel ms (acc ++ [m]) h2

/-- Req of mvs.go lines 235 to 317: build the full list, compute the
postorder over the cached requirement graph (with the target preseeded as
a leaf), then emit the base paths at maximal versions followed by any
uncovered maximal postorder entries, and sort by path. -/
def Req (target : Version) (base : List String) (reqs : Reqs) (fuel : Nat) :
    Except MvsError (List Version) :=
  match buildList target reqs none fuel with
  | .error e => .error e
  | .ok list =>
    match walkPosts reqs fuel list [(target, [])] [] with
    | .error e => .error e
    | .ok (cache, post) =>
      let maxM := buildMaxM reqs list
      match baseLoop cache maxM fuel base [] [] with
      | .error e => .error e
      | .ok (minAcc, h) =>
        match extrasLoop cache maxM fuel post.reverse minAcc h with
        | .error e => .error e
        | .ok (minAcc2, _) => .ok (sortByPath minAcc2)

/-- The upgrade hook passed to the explorer by UpgradeAll (mvs.go lines
322 to 328): any module whose path equals the target path is replaced by
the target itself; everything else is upgraded by the provider. -/
def upgradeAllFn (target : Version) (reqs : Reqs) (m : Version) :
    Except String Version :=
  if m.path = target.path then .ok target else reqs.upgrade m

/-- UpgradeAll of mvs.go lines 321 to 329. -/
def UpgradeAll (target : Version) (reqs : Reqs) (fuel : Nat) :
    Except MvsError (List Version) :=
  buildList target reqs (some (upgradeAllFn target reqs)) fuel

/-- The per-path upgrade table built by Upgrade (mvs.go lines 345 to 355):
duplicate entries for a path are folded with the comparator. -/
def upgradeToM (reqs : Reqs) (ups : List Version) : List (String × String) :=
  ups.foldl
    (fun acc u =>
      match lookupA u.path acc with
      | some prev => setA u.path (reqs.max prev u.version) acc
      | none => setA u.path u.version acc)
    []

/-- The upgrade hook built by Upgrade (mvs.go lines 357 to 362): it
consults only the module path against the upgrade table. -/
def upgradeFnOf (upTo : List (String × String)) (m : Version) :
    Except String Version :=
  match lookupA m.path upTo with
  | some v => .ok ⟨m.path, v⟩
  | none => .ok m

/-- The wrapper provider of Upgrade (mvs.go lines 470 to 481): the target
requirement list is overridden, everything else is passed through. -/
def overrideReqs (target : Version) (list : List Version) (reqs : Reqs) : Reqs :=
  { reqs with required := fun m => if m = target then .ok list else reqs.required m }

/-- Upgrade of mvs.go lines 333 to 363: extras whose paths are not yet
required are added at version none, the upgrade table is built folding
duplicates with the comparator, and the explorer runs on the wrapper
provider with the path-keyed upgrade hook. -/
def Upgrade (target : Version) (reqs : Reqs) (ups : List Version) (fuel : Nat) :
    Except MvsError (List Version) :=
  match reqs.required target with
  | .error e => .error (.plain e)
  | .ok list =>
    let pathIn := list.map Version.path
    let list2 := list ++ ups.filterMap
      (fun u => if u.path ∈ pathIn then none else some (⟨u.path, "none"⟩ : Version))
    buildList target (overrideReqs target list2 reqs)
      (some (upgradeFnOf (upgradeToM reqs ups))) fuel

/-- Downgrade state: the added and excluded marks and the reverse
dependency multimap (mvs.go lines 387 to 391). -/
structure DgSt where
  added : List Version
  excluded : List Version
  rdeps : List (Version × List Version)
deriving Repr

/-- The recursive exclusion walk of Downgrade (mvs.go lines 392 to 401),
on lists: mark each pending module excluded and recursively exclude its
recorded reverse dependencies. -/
def excludeL (rdeps : List (Version × List Version)) :
    Nat → List Version → List Version → Option (List Version)
  | 0, _, _ => none
  | _ + 1, [], exc => some exc
  | fuel + 1, m :: ms, exc =>
    if m ∈ exc then excludeL rdeps fuel ms exc
    else
      match excludeL rdeps fuel ((lookupA m rdeps).getD []) (exc ++ [m]) with
      | none => none
      | some e2 => excludeL rdeps fuel ms e2

/-- Task of the add walk: either enter one module, or resume the loop over
the requirement list of a module after one of its requirements was added. -/
inductive AddTask where
  | enter : Version → AddTask
  | loop : Version → List Version → AddTask

/-- The recursive add walk of Downgrade (mvs.go lines 402 to 434): a new
module is marked added, excluded at once when it exceeds the per-path cap,
excluded when its requirements cannot be fetched, and otherwise its
requirements are added in order, aborting (excluding the module) as soon
as one of them ends up excluded, recording reverse dependencies along the
way. -/
def addGo (reqs : Reqs) (capM : List (String × String)) :
    Nat → AddTask → DgSt → Option DgSt
  | 0, _, _ => none
  | fuel + 1, .enter m, st =>
    if m ∈ st.added then some st
    else
      match lookupA m.path capM with
      | some v =>
        if reqs.max m.version v ≠ v then
          match excludeL st.rdeps fuel [m] st.excluded with
          | none => none
          | some exc => some ⟨st.added ++ [m], exc, st.rdeps⟩
        else
          match reqs.required m with
          | .error _ =>
            match excludeL st.rdeps fuel [m] st.excluded with
            | none => none
            | some exc => some ⟨st.added ++ [m], exc, st.rdeps⟩
          | .ok l => addGo reqs capM fuel (.loop m l) ⟨st.added ++ [m], st.excluded, st.rdeps⟩
      | none =>
        match reqs.required m with
        | .error _ =>
          match excludeL st.rdeps fuel [m] st.excluded with
          | none => none
          | some exc => some ⟨st.added ++ [m], exc, st.rdeps⟩
        | .ok l => addGo reqs capM fuel (.loop m l) ⟨st.added ++ [m], st.excluded, st.rdeps⟩
  | fuel + 1, .loop m rs, st =>
    match rs with
    | [] => some st
    | r :: rs2 =>
      match addGo reqs capM fuel (.enter r) st with
      | none => none
      | some st2 =>
        if r ∈ st2.excluded then
          match excludeL st2.rdeps fuel [m] st2.excluded with
          | none => none
          | some exc => some { st2 with excluded := exc }
        else
          addGo reqs capM fuel (.loop m rs2)
            { st2 with rdeps := setA r ((lookupA r st2.rdeps).getD [] ++ [m]) st2.rdeps }

/-- The clamp of the lowering loop (mvs.go lines 455 to 457): when the
cap of the path lies strictly below the current requirement and previous
overshot it, the previous version is pulled up to the cap. -/
def dgClamp (reqs : Reqs) (capM : List (String × String)) (r p : Version) : Version :=
  if reqs.max ((lookupA r.path capM).getD "") r.version ≠ ((lookupA r.path capM).getD "") ∧
      reqs.max p.version ((lookupA r.path capM).getD "") ≠ p.version then
    (⟨p.path, (lookupA r.path capM).getD ""⟩ : Version)
  else p

/-- The per-requirement lowering loop of Downgrade (mvs.go lines 441 to
463): while the current version is excluded, fetch the previous version
(returning its failure directly), clamp it, drop the path entirely on
none, otherwise add it and retry. -/
def dgFix (reqs : Reqs) (capM : List (String × String)) :
    Nat → Version → DgSt → Except MvsError (DgSt × Option Version)
  | 0, _, _ => .error .outOfFuel
  | fuel + 1, r, st =>
    if r ∈ st.excluded then
      match reqs.previous r with
      | .error e => .error (.plain e)
      | .ok p =>
        if (dgClamp reqs capM r p).version = "none" then .ok (st, none)
        else
          match addGo reqs capM fuel (.enter (dgClamp reqs capM r p)) st with
          | none => .error .outOfFuel
          | some st2 => dgFix reqs capM fuel (dgClamp reqs capM r p) st2
    else .ok (st, some r)

/-- The main requirement loop of Downgrade (mvs.go lines 438 to 465). -/
def dgLoop (reqs : Reqs) (capM : List (String × String)) :
    Nat → List Version → DgSt → List Version → Except MvsError (List Version)
  | 0, _, _, _ => .error .outOfFuel
  | _ + 1, [], _, out => .ok out
  | fuel + 1, r :: rs, st, out =>
    match addGo reqs capM fuel (.enter r) st with
    | none => .error .outOfFuel
    | some st1 =>
      match dgFix reqs capM fuel r st1 with
      | .error e => .error e
      | .ok (st2, none) => dgLoop reqs capM fuel rs st2 out
      | .ok (st2, some rr) => dgLoop reqs capM fuel rs st2 (out ++ [rr])

/-- The per-path caps of Downgrade (mvs.go lines 377 to 385): the target
requirements seed the map, then each downgrade target lowers its path cap
unless the existing cap is already at or below it. -/
def capStep (reqs : Reqs) (acc : List (String × String)) (d : Version) :
    List (String × String) :=
  match lookupA d.path acc with
  | none => setA d.path d.version acc
  | some v => if reqs.max v d.version ≠ d.version then setA d.path d.version acc else acc

/-- See the cap seeding and lowering described above. -/
def dgCaps (reqs : Reqs) (list : List Version) (dg : List Version) :
    List (String × String) :=
  dg.foldl (capStep reqs) (list.foldl (fun acc r => setA r.path r.version acc) [])

/-- Downgrade of mvs.go lines 372 to 468. -/
def Downgrade (target : Version) (reqs : Reqs) (dg : List Version) (fuel : Nat) :
    Except MvsError (List Version) :=
  match reqs.required target with
  | .error e => .error (.plain e)
  | .ok list =>
    dgLoop reqs (dgCaps reqs list dg) fuel list ⟨[], [], []⟩ [target]

/-- The comparator laws under which the per-path fold computes a true
maximum: the result is always one of the arguments, and the operation is
commutative and associative (the maximum of a linear order on versions). -/
structure MaxOrder (mx : String → String → String) : Prop where
  choice : ∀ a b, mx a b = a ∨ mx a b = b
  comm : ∀ a b, mx a b = mx b a
  assoc : ∀ a b c, mx (mx a b) c = mx a (mx b c)

/-- The order induced by a comparator: a is at most b when the comparator
of a and b yields b. -/
def Le (mx : String → String → String) (a b : String) : Prop := mx a b = b

/-- The two Max contract clauses stated in the source documentation of
Reqs.Max: none is an identity on the right, and the target version wins
on the left. -/
def MaxContractWeak (mx : String → String → String) (target : Version) : Prop :=
  (∀ v, mx v "none" = v) ∧ (∀ v, mx target.version v = target.version)

/-- Reachability in the requirement graph as explored by buildList: the
root is reachable, and the requirements of a reachable vertex whose
version is not the sentinel none are reachable.  Requirement lists of
none vertices are never fetched, so they contribute no edges. -/
inductive ReachR (reqs : Reqs) (root : Version) : Version → Prop where
  | root : ReachR reqs root root
  | step : ∀ u l r, ReachR reqs root u → u.version ≠ "none" →
      reqs.required u = .ok l → r ∈ l → ReachR reqs root r

/-- A vertex m is the head of an edge of the reachable subgraph: some
reachable vertex, not carrying the sentinel none, requires m. -/
def EdgeTo (reqs : Reqs) (root : Version) (m : Version) : Prop :=
  ∃ u l, ReachR reqs root u ∧ u.version ≠ "none" ∧
    reqs.required u = .ok l ∧ m ∈ l

/-- An edge of the reachable subgraph pointing at path p with version v:
some reachable non-none vertex requires (p, v), and v is not none. -/
def EdgeVer (reqs : Reqs) (root : Version) (p v : String) : Prop :=
  v ≠ "none" ∧ EdgeTo reqs root ⟨p, v⟩

/-- What exploration guarantees about every registered node: it records
its own vertex, and its stored requirement list reflects the provider
answer (empty for none vertices whose requirements are never fetched). -/
def GraphSpec (reqs : Reqs) (st : ExpSt) : Prop :=
  ∀ m nd, lookupA m st.graph = some nd →
    nd.m = m ∧
    (m.version = "none" → nd.required = []) ∧
    (∀ l, m.version ≠ "none" → reqs.required m = .ok l → nd.required = l)

/-- Every stored requirement of a registered node is either registered
itself or still pending in the queue. -/
def ChildrenInv (st : ExpSt) (q : List Version) : Prop :=
  ∀ m nd, lookupA m st.graph = some nd → ∀ r ∈ nd.required,
    (∃ nd2, lookupA r st.graph = some nd2) ∨ r ∈ q

/-- Every registered non-none vertex is dominated by the running per-path
maximum of its path. -/
def MaxleInv (reqs : Reqs) (st : ExpSt) : Prop :=
  ∀ m nd, lookupA m st.graph = some nd → m.version ≠ "none" →
    ∃ v, lookupA m.path st.minM = some v ∧ Le reqs.max m.version v

/-- No registered node carries an error. -/
def ErrFreeG (st : ExpSt) : Prop :=
  ∀ m nd, lookupA m st.graph = some nd → nd.err = none

/-- Whether a result is the fatal abort of the finalizer. -/
def resultPanics : Except MvsError (List Version) → Bool
  | .error (.panicked _) => true
  | _ => false

/-- Whether a result is the typed build list error of the reporter. -/
def resultBuildListE : Except MvsError (List Version) → Bool
  | .error (.buildListE _) => true
  | _ => false

/-- Reachability over the Req requirement cache: from a start vertex
through cached requirement lists. -/
inductive CacheReach (cache : List (Version × List Version)) : Version → Version → Prop where
  | refl : ∀ m, CacheReach cache m m
  | step : ∀ a b l c, CacheReach cache a b → lookupA b cache = some l → c ∈ l →
      CacheReach cache a c

/-- Closedness of a mark set over the cache except at the listed pending
vertices: the cached requirements of any marked non-pending vertex are
marked. -/
def ClosedExcept (cache : List (Version × List Version)) (h : List Version)
    (pend : List Version) : Prop :=
  ∀ x ∈ h, x ∉ pend → ∀ c ∈ (lookupA x cache).getD [], c ∈ h

/-- The string comparator used by the concrete scenarios: lexicographic
maximum. -/
def mxS (a b : String) : String := if strLe a b then b else a

/-- A rank placing none at the bottom and a chosen top version above all
other strings, used to build concrete comparators satisfying the full Max
contract. -/
def rkW (t s : String) : Nat := if s = t then 2 else if s = "none" then 0 else 1

/-- A concrete comparator with none as bottom and t as top: maximum by
rank, ties broken lexicographically. -/
def mxW (t : String) (a b : String) : String :=
  if rkW t a < rkW t b ∨ (rkW t a = rkW t b ∧ strLe a b = true) then b else a

/-- Provider of scenario S2 of the spec: the max wins case. -/
def reqsS2 : Reqs where
  required := fun m =>
    if m = ⟨"T", "9"⟩ then .ok [⟨"B", "1"⟩, ⟨"C", "1"⟩]
    else if m = ⟨"B", "1"⟩ then .ok [⟨"C", "2"⟩]
    else .ok []
  max := mxS
  upgrade := fun m => .ok m
  previous := fun m => .ok ⟨m.path, "none"⟩

/-- Provider of scenario S3 of the spec: the none sentinel case. -/
def reqsS3 : Reqs where
  required := fun m =>
    if m = ⟨"T", "9"⟩ then .ok [⟨"B", "none"⟩, ⟨"C", "1"⟩]
    else if m = ⟨"C", "1"⟩ then .ok [⟨"B", "2"⟩]
    else .ok []
  max := mxS
  upgrade := fun m => .ok m
  previous := fun m => .ok ⟨m.path, "none"⟩

/-- Provider of scenario S4 of the spec: failure two levels below the
root. -/
def reqsS4 : Reqs where
  required := fun m =>
    if m = ⟨"T", "9"⟩ then .ok [⟨"A", "1"⟩]
    else if m = ⟨"A", "1"⟩ then .ok [⟨"B", "1"⟩]
    else if m = ⟨"B", "1"⟩ then .error "E"
    else .ok []
  max := mxS
  upgrade := fun m => .ok m
  previous := fun m => .ok ⟨m.path, "none"⟩

/-- Provider with the root required back by a reachable module and a
failing vertex: the backwards neededBy walk of the error reporter cycles
between the root and its discoverer and never terminates. -/
def reqsCyc : Reqs where
  required := fun m =>
    if m = ⟨"T", "9"⟩ then .ok [⟨"A", "1"⟩]
    else if m = ⟨"A", "1"⟩ then .ok [⟨"T", "9"⟩, ⟨"B", "1"⟩]
    else if m = ⟨"B", "1"⟩ then .error "E"
    else .ok []
  max := mxS
  upgrade := fun m => .ok m
  previous := fun m => .ok ⟨m.path, "none"⟩

/-- A comparator that satisfies both documented Max contract clauses for
the target version 9 yet orders 1 and 2 inconsistently depending on
argument order. -/
def mxCE (a b : String) : String :=
  if b = "none" then a
  else if a = "9" then "9"
  else if a = "1" ∧ b = "2" then "2"
  else if a = "2" ∧ b = "1" then "1"
  else a

/-- Provider driving the finalizer into its fatal check with the
inconsistent comparator mxCE. -/
def reqsC4 : Reqs where
  required := fun m =>
    if m = ⟨"T", "9"⟩ then .ok [⟨"B", "1"⟩, ⟨"C", "1"⟩]
    else if m = ⟨"C", "1"⟩ then .ok [⟨"B", "2"⟩]
    else .ok []
  max := mxCE
  upgrade := fun m => .ok m
  previous := fun m => .ok ⟨m.path, "none"⟩

/-- Provider whose build succeeds but whose requirement fetch fails on a
none vertex that only Req walks. -/
def reqsC5 : Reqs where
  required := fun m =>
    if m = ⟨"T", "9"⟩ then .ok [⟨"C", "1"⟩]
    else if m = ⟨"C", "1"⟩ then .ok [⟨"B", "none"⟩]
    else if m = ⟨"B", "none"⟩ then .error "boom"
    else .ok []
  max := mxS
  upgrade := fun m => .ok m
  previous := fun m => .ok ⟨m.path, "none"⟩

/-- The previous version table of the downgrade scenarios. -/
def prevDG (m : Version) : String :=
  if m = ⟨"A", "3"⟩ then "2"
  else if m = ⟨"A", "2"⟩ then "1"
  else "none"

/-- Provider of the downgrade scenario: the root requires A at 3, older
versions of A are reachable through previous. -/
def reqsDG : Reqs where
  required := fun m =>
    if m = ⟨"T", "9"⟩ then .ok [⟨"A", "3"⟩]
    else .ok []
  max := mxS
  upgrade := fun m => .ok m
  previous := fun m => .ok ⟨m.path, prevDG m⟩

/-- Provider for the downgrade previous failure case: fetching the
previous version of the excluded requirement fails. -/
def reqsDGE : Reqs where
  required := fun m =>
    if m = ⟨"T", "9"⟩ then .ok [⟨"A", "3"⟩]
    else .ok []
  max := mxS
  upgrade := fun m => .ok m
  previous := fun _ => .error "E"

/-- Provider for the UpgradeAll scenario: the provider would upgrade even
the root, the hook must ignore that. -/
def reqsUA : Reqs where
  required := fun m =>
    if m = ⟨"T", "9"⟩ then .ok [⟨"A", "1"⟩]
    else .ok []
  max := mxS
  upgrade := fun m =>
    if m = ⟨"A", "1"⟩ then .ok ⟨"A", "2"⟩
    else if m = ⟨"T", "9"⟩ then .ok ⟨"T", "5"⟩
    else .ok m
  previous := fun m => .ok ⟨m.path, "none"⟩

/-- Provider over the contract respecting comparator with top version 9,
used to witness that the finalizer aborts are unreachable. -/
def reqsW : Reqs where
  required := fun m =>
    if m = ⟨"T", "9"⟩ then .ok [⟨"A", "1"⟩]
    else .ok []
  max := mxW "9"
  upgrade := fun m => .ok m
  previous := fun m => .ok ⟨m.path, "none"⟩

/-- The invariant of the per-path maxima map that needs no assumption on
the comparator: keys are unique, values are never the sentinel none, and
every binding (p, v) comes from a vertex (p, v) registered in the graph. -/
def MinOK (st : ExpSt) : Prop :=
  (keysA st.minM).Nodup ∧
  ∀ p v, lookupA p st.minM = some v →
    v ≠ "none" ∧ ∃ nd, lookupA (⟨p, v⟩ : Version) st.graph = some nd

/-- Invariant of the Downgrade add and exclude walks: every added module
that has not been excluded respects the cap of its path. -/
def DgInv (reqs : Reqs) (capM : List (String × String)) (st : DgSt) : Prop :=
  ∀ m ∈ st.added, m ∉ st.excluded →
    ∀ c, lookupA m.path capM = some c → Le reqs.max m.version c

/-- Every entry emitted by the downgrade loop either is the target head
or respects the cap of its path. -/
def CapBound (reqs : Reqs) (capM : List (String × String)) (target : Version)
    (x : Version) : Prop :=
  x = target ∨ ∀ c, lookupA x.path capM = some c → Le reqs.max x.version c

section AssocLemmas

variable {α β : Type} [DecidableEq α]

theorem lookupA_append (k : α) (l r : List (α × β)) :
    lookupA k (l ++ r) =
      (match lookupA k l with | some v => some v | none => lookupA k r) := by
  induction l with
  | nil => simp [lookupA]
  | cons hd tl ih =>
    obtain ⟨a, b⟩ := hd
    by_cases h : a = k <;> simp [lookupA, h, ih]

theorem lookupA_append_left {k : α} {l : List (α × β)} {v : β} (r : List (α × β))
    (h : lookupA k l = some v) : lookupA k (l ++ r) = some v := by
  rw [lookupA_append, h]

theorem lookupA_append_right {k : α} {l : List (α × β)} (r : List (α × β))
    (h : lookupA k l = none) : lookupA k (l ++ r) = lookupA k r := by
  rw [lookupA_append, h]

theorem lookupA_none_iff (k : α) (l : List (α × β)) :
    lookupA k l = none ↔ k ∉ keysA l := by
  induction l with
  | nil => simp [lookupA, keysA]
  | cons hd tl ih =>
    obtain ⟨a, b⟩ := hd
    by_cases h : a = k <;> simp [lookupA, h, keysA, ih] <;> tauto

theorem lookupA_mem {k : α} {l : List (α × β)} {v : β}
    (h : lookupA k l = some v) : (k, v) ∈ l := by
  induction l with
  | nil => simp [lookupA] at h
  | cons hd tl ih =>
    obtain ⟨a, b⟩ := hd
    by_cases ha : a = k
    · subst ha
      simp [lookupA] at h
      simp [h]
    · simp [lookupA, ha] at h
      exact List.mem_cons_of_mem _ (ih h)

theorem lookupA_of_mem {k : α} {l : List (α × β)} {v : β}
    (hnd : (keysA l).Nodup) (h : (k, v) ∈ l) : lookupA k l = some v := by
  induction l with
  | nil => simp at h
  | cons hd tl ih =>
    obtain ⟨a, b⟩ := hd
    rw [keysA, List.map_cons, List.nodup_cons] at hnd
    rcases List.mem_cons.1 h with h1 | h2
    · rw [Prod.mk.injEq] at h1
      obtain ⟨h1a, h1b⟩ := h1
      subst h1a; subst h1b
      simp [lookupA]
    · have hak : a ≠ k := by
        intro he; subst he
        exact hnd.1 (List.mem_map.2 ⟨(a, v), h2, rfl⟩)
      simp only [lookupA, if_neg hak]
      exact ih hnd.2 h2

theorem keysA_append (l r : List (α × β)) : keysA (l ++ r) = keysA l ++ keysA r := by
  simp [keysA]

theorem lookupA_setA_self (k : α) (v : β) (l : List (α × β)) :
    lookupA k (setA k v l) = some v := by
  induction l with
  | nil => simp [setA, lookupA]
  | cons hd tl ih =>
    obtain ⟨a, b⟩ := hd
    by_cases h : a = k <;> simp [setA, h, lookupA, ih]

theorem lookupA_setA_ne (k k' : α) (v : β) (l : List (α × β)) (h : k' ≠ k) :
    lookupA k' (setA k v l) = lookupA k' l := by
  induction l with
  | nil => simp [setA, lookupA, Ne.symm h]
  | cons hd tl ih =>
    obtain ⟨a, b⟩ := hd
    by_cases ha : a = k
    · subst ha
      simp [setA, lookupA, Ne.symm h]
    · simp [setA, ha, lookupA, ih]

theorem keysA_setA_mem (k : α) (v : β) (l : List (α × β)) (h : k ∈ keysA l) :
    keysA (setA k v l) = keysA l := by
  induction l with
  | nil => simp [keysA] at h
  | cons hd tl ih =>
    obtain ⟨a, b⟩ := hd
    by_cases ha : a = k
    · simp [setA, ha, keysA]
    · have h2 : k ∈ keysA tl := by
        simp [keysA] at h ⊢
        rcases h with h | h
        · exact absurd h.symm ha
        · exact h
      simp only [setA, if_neg ha, keysA, List.map_cons] at ih ⊢
      rw [ih h2]

theorem keysA_setA_not_mem (k : α) (v : β) (l : List (α × β)) (h : k ∉ keysA l) :
    keysA (setA k v l) = keysA l ++ [k] := by
  induction l with
  | nil => simp [setA, keysA]
  | cons hd tl ih =>
    obtain ⟨a, b⟩ := hd
    simp [keysA] at h
    push_neg at h
    simp [setA, Ne.symm h.1, keysA] at ih ⊢
    exact ih h.2

theorem nodup_keysA_setA (k : α) (v : β) (l : List (α × β))
    (h : (keysA l).Nodup) : (keysA (setA k v l)).Nodup := by
  by_cases hm : k ∈ keysA l
  · rw [keysA_setA_mem k v l hm]; exact h
  · rw [keysA_setA_not_mem k v l hm]
    simpa [List.nodup_append] using ⟨h, hm⟩

end AssocLemmas

/-- Eta law for versions, used to tie map entries back to vertices. -/
theorem Version.eta (m : Version) : (⟨m.path, m.version⟩ : Version) = m := rfl

theorem charsLe_total : ∀ cs ds, charsLe cs ds = true ∨ charsLe ds cs = true := by
  intro cs
  induction cs with
  | nil => intro ds; left; rfl
  | cons c cs ih =>
    intro ds
    cases ds with
    | nil => right; rfl
    | cons d ds =>
      by_cases h1 : c.toNat < d.toNat
      · left; simp [charsLe, h1]
      · by_cases h2 : d.toNat < c.toNat
        · right; simp [charsLe, h1, h2]
        · rcases ih ds with h | h
          · left; simp [charsLe, h1, h2, h]
          · right; simp [charsLe, h1, h2, h]

theorem charsLe_trans : ∀ as bs cs, charsLe as bs = true → charsLe bs cs = true →
    charsLe as cs = true := by
  intro as
  induction as with
  | nil => intro bs cs _ _; rfl
  | cons a as ih =>
    intro bs cs h1 h2
    cases bs with
    | nil => simp [charsLe] at h1
    | cons b bs =>
      cases cs with
      | nil => simp [charsLe] at h2
      | cons c cs =>
        simp only [charsLe] at h1 h2 ⊢
        by_cases hab : a.toNat < b.toNat <;> by_cases hbc : b.toNat < c.toNat
        · simp [Nat.lt_trans hab hbc]
        · by_cases hcb : c.toNat < b.toNat
          · simp [hbc, hcb] at h2
          · have hbceq : b.toNat = c.toNat :=
              Nat.le_antisymm (Nat.not_lt.1 hcb) (Nat.not_lt.1 hbc)
            simp [hbceq ▸ hab]
        · by_cases hba : b.toNat < a.toNat
          · simp [hab, hba] at h1
          · have habeq : a.toNat = b.toNat :=
              Nat.le_antisymm (Nat.not_lt.1 hba) (Nat.not_lt.1 hab)
            simp [habeq ▸ hbc]
        · by_cases hba : b.toNat < a.toNat
          · simp [hab, hba] at h1
          · by_cases hcb : c.toNat < b.toNat
            · simp [hbc, hcb] at h2
            · have habeq : a.toNat = b.toNat :=
                Nat.le_antisymm (Nat.not_lt.1 hba) (Nat.not_lt.1 hab)
              have hbceq : b.toNat = c.toNat :=
                Nat.le_antisymm (Nat.not_lt.1 hcb) (Nat.not_lt.1 hbc)
              simp only [hab, hba, if_false, if_neg] at h1
              simp only [hbc, hcb, if_false, if_neg] at h2
              have hac : ¬ a.toNat < c.toNat := by omega
              have hca : ¬ c.toNat < a.toNat := by omega
              simp [hac, hca]
              exact ih bs cs (by simpa using h1) (by simpa using h2)

theorem charsLe_antisymm : ∀ as bs, charsLe as bs = true → charsLe bs as = true →
    as = bs := by
  intro as
  induction as with
  | nil =>
    intro bs _ h2
    cases bs with
    | nil => rfl
    | cons b bs => simp [charsLe] at h2
  | cons a as ih =>
    intro bs h1 h2
    cases bs with
    | nil => simp [charsLe] at h1
    | cons b bs =>
      simp only [charsLe] at h1 h2
      by_cases hab : a.toNat < b.toNat
      · have : ¬ b.toNat < a.toNat := by omega
        simp [hab, this] at h2
      · by_cases hba : b.toNat < a.toNat
        · simp [hab, hba] at h1
        · have habeq : a.toNat = b.toNat :=
            Nat.le_antisymm (Nat.not_lt.1 hba) (Nat.not_lt.1 hab)
          have hc : a = b := Char.eq_of_val_eq (UInt32.ext habeq)
          simp only [hab, hba, if_false, if_neg] at h1 h2
          rw [hc, ih bs (by simpa using h1) (by simpa using h2)]

theorem strLe_total (a b : String) : strLe a b = true ∨ strLe b a = true :=
  charsLe_total a.data b.data

theorem strLe_trans {a b c : String} (h1 : strLe a b = true) (h2 : strLe b c = true) :
    strLe a c = true :=
  charsLe_trans a.data b.data c.data h1 h2

theorem strLe_antisymm {a b : String} (h1 : strLe a b = true) (h2 : strLe b a = true) :
    a = b := by
  have := charsLe_antisymm a.data b.data h1 h2
  cases a with
  | mk da =>
    cases b with
    | mk db => exact congrArg String.mk (by simpa using this)

theorem updateMin_lookup (reqs : Reqs) (minM : List (String × String))
    (m : Version) (p : String) (v : String)
    (h : lookupA p (updateMin reqs minM m) = some v) :
    lookupA p minM = some v ∨ (p = m.path ∧ v = m.version ∧ m.version ≠ "none") := by
  unfold updateMin at h
  by_cases hn : m.version = "none"
  · rw [if_pos hn] at h; exact Or.inl h
  · rw [if_neg hn] at h
    rcases hl : lookupA m.path minM with _ | w <;> simp only [hl] at h
    · by_cases hp : p = m.path
      · subst hp
        rw [lookupA_setA_self] at h
        exact Or.inr ⟨rfl, (Option.some.inj h).symm, hn⟩
      · rw [lookupA_setA_ne _ _ _ _ hp] at h
        exact Or.inl h
    · by_cases hg : reqs.max w m.version ≠ w
      · rw [if_pos hg] at h
        by_cases hp : p = m.path
        · subst hp
          rw [lookupA_setA_self] at h
          exact Or.inr ⟨rfl, (Option.some.inj h).symm, hn⟩
        · rw [lookupA_setA_ne _ _ _ _ hp] at h
          exact Or.inl h
      · rw [if_neg hg] at h
        exact Or.inl h

theorem updateMin_nodup (reqs : Reqs) (minM : List (String × String)) (m : Version)
    (h : (keysA minM).Nodup) : (keysA (updateMin reqs minM m)).Nodup := by
  unfold updateMin
  by_cases hn : m.version = "none"
  · rw [if_pos hn]; exact h
  · rw [if_neg hn]
    rcases hl : lookupA m.path minM with _ | w <;> simp only [hl]
    · exact nodup_keysA_setA _ _ _ h
    · by_cases hg : reqs.max w m.version ≠ w
      · rw [if_pos hg]; exact nodup_keysA_setA _ _ _ h
      · rw [if_neg hg]; exact h

/-- Processing a vertex leaves the per-path maxima of stepUpgrade alone. -/
theorem stepUpgrade_minM (upg : Option (Version → Except String Version))
    (m : Version) (minM : List (String × String)) (node : Node) (items : List Version) :
    (stepUpgrade upg m minM node items).minM = minM := by
  unfold stepUpgrade
  cases upg with
  | none => rfl
  | some f =>
    rcases hf : f m with e | u
    · simp [hf]
    · by_cases h : u = m <;> simp [hf, h]

theorem processVertex_minM (reqs : Reqs) (upg : Option (Version → Except String Version))
    (minM : List (String × String)) (m : Version) :
    (processVertex reqs upg minM m).minM = updateMin reqs minM m := by
  unfold processVertex
  by_cases hn : m.version = "none"
  · simp [hn, stepUpgrade_minM]
  · simp [hn]
    cases reqs.required m with
    | error e => rfl
    | ok l => simp [stepUpgrade_minM]

/-- Exploration only ever appends to the graph map. -/
theorem explore_graph_ext (reqs : Reqs) (upg : Option (Version → Except String Version)) :
    ∀ (fuel : Nat) (q : List Version) (st st' : ExpSt),
      explore reqs upg fuel q st = some st' →
      ∃ ext, st'.graph = st.graph ++ ext := by
  intro fuel
  induction fuel with
  | zero => intro q st st' h; simp [explore] at h
  | succ n ih =>
    intro q st st' h
    cases q with
    | nil =>
      simp [explore] at h
      exact ⟨[], by simp [h]⟩
    | cons m rest =>
      unfold explore at h
      rcases hl : lookupA m st.graph with _ | nd
      · rw [hl] at h
        obtain ⟨ext, hext⟩ := ih _ _ _ h
        exact ⟨(m, (processVertex reqs upg st.minM m).node) :: ext, by
          simpa using hext⟩
      · rw [hl] at h
        exact ih _ _ _ h

theorem explore_graph_mono {reqs : Reqs} {upg : Option (Version → Except String Version)}
    {fuel : Nat} {q : List Version} {st st' : ExpSt} {m : Version} {nd : Node}
    (h : explore reqs upg fuel q st = some st')
    (hm : lookupA m st.graph = some nd) : lookupA m st'.graph = some nd := by
  obtain ⟨ext, hext⟩ := explore_graph_ext reqs upg fuel q st st' h
  rw [hext]
  exact lookupA_append_left ext hm

/-- MinOK is preserved by exploration. -/
theorem explore_minOK (reqs : Reqs) (upg : Option (Version → Except String Version)) :
    ∀ (fuel : Nat) (q : List Version) (st st' : ExpSt),
      explore reqs upg fuel q st = some st' → MinOK st → MinOK st' := by
  intro fuel
  induction fuel with
  | zero => intro q st st' h; simp [explore] at h
  | succ n ih =>
    intro q st st' h hok
    cases q with
    | nil => simp [explore] at h; exact h ▸ hok
    | cons m rest =>
      unfold explore at h
      rcases hl : lookupA m st.graph with _ | nd
      · rw [hl] at h
        refine ih _ _ _ h ⟨?_, ?_⟩
        · simp only [processVertex_minM]
          exact updateMin_nodup reqs st.minM m hok.1
        · intro p v hp
          simp only [processVertex_minM] at hp
          rcases updateMin_lookup reqs st.minM m p v hp with hform | ⟨hp1, hv1, hn1⟩
          · obtain ⟨hvn, nd0, hnd0⟩ := hok.2 p v hform
            exact ⟨hvn, nd0, lookupA_append_left _ hnd0⟩
          · subst hp1; subst hv1
            refine ⟨hn1, (processVertex reqs upg st.minM m).node, ?_⟩
            rw [Version.eta]
            rw [lookupA_append_right _ hl]
            simp [lookupA]
      · rw [hl] at h
        exact ih _ _ _ h hok

theorem minOK_init : MinOK ⟨[], [], false⟩ := by
  constructor
  · simp [keysA]
  · intro p v h
    simp [lookupA] at h

/-- Unpacking a successful finalize call. -/
theorem finalize_ok {target : Version} {reqs : Reqs} {st : ExpSt} {L : List Version}
    (h : finalize target reqs st = .ok L) :
    (lookupA target.path st.minM).getD "" = target.version ∧
    st.minM.all (fun pv => entryOK reqs st target.path pv) = true ∧
    L = target :: sortByPath ((st.minM.filter fun pv => pv.1 ≠ target.path).map
      fun pv => (⟨pv.1, pv.2⟩ : Version)) := by
  unfold finalize at h
  by_cases h1 : (lookupA target.path st.minM).getD "" ≠ target.version
  · rw [if_pos h1] at h; exact Except.noConfusion h
  · rw [if_neg h1] at h
    push_neg at h1
    by_cases h2 : st.minM.all (fun pv => entryOK reqs st target.path pv) = true
    · rw [if_neg (by simp [h2])] at h
      exact ⟨h1, h2, (Except.ok.inj h).symm⟩
    · rw [if_pos (by simpa using h2)] at h
      exact Except.noConfusion h

/-- A successful buildList call comes from a finished exploration whose
final state passed the finalizer. -/
theorem buildList_ok_state {target : Version} {reqs : Reqs}
    {upg : Option (Version → Except String Version)} {fuel : Nat} {L : List Version}
    (h : buildList target reqs upg fuel = .ok L) :
    ∃ st, explore reqs upg fuel [target] ⟨[], [], false⟩ = some st ∧
      finalize target reqs st = .ok L ∧ MinOK st := by
  unfold buildList at h
  rcases he : explore reqs upg fuel [target] ⟨[], [], false⟩ with _ | st <;>
    simp only [he] at h
  · exact Except.noConfusion h
  · refine ⟨st, rfl, ?_, explore_minOK reqs upg fuel [target] _ st he minOK_init⟩
    by_cases hb : st.haveErr
    · rw [if_pos hb] at h
      rcases hw : errWalk st.graph fuel [target] [] with _ | oinfo <;>
        simp only [hw] at h
      · exact Except.noConfusion h
      · cases oinfo with
        | none => exact h
        | some info => exact Except.noConfusion h
    · rw [if_neg hb] at h
      exact h

theorem minOK_root_version {st : ExpSt} {target : Version} (hok : MinOK st)
    (h : (lookupA target.path st.minM).getD "" = target.version) :
    target.version ≠ "none" := by
  rcases hl : lookupA target.path st.minM with _ | v
  · rw [hl] at h
    simp at h
    rw [← h]
    decide
  · rw [hl] at h
    simp at h
    subst h
    exact (hok.2 _ _ hl).1

/-- Shared shape lemma about every successful buildList call: the first
output element is the root; the tail is strictly ascending by path and
never uses the root path; no output element carries the sentinel version
none; the tail consists exactly of the selected non-root bindings of the
per-path maxima map of the finished exploration. -/
theorem buildList_shape_aux (target : Version) (reqs : Reqs)
    (upg : Option (Version → Except String Version)) (fuel : Nat) (L : List Version)
    (h : buildList target reqs upg fuel = .ok L) :
    L.head? = some target ∧
    L.tail.Pairwise (fun a b => strLe a.path b.path = true ∧ a.path ≠ b.path) ∧
    (∀ m ∈ L, m.version ≠ "none") ∧
    (∀ m ∈ L.tail, m.path ≠ target.path) ∧
    ∃ st, explore reqs upg fuel [target] ⟨[], [], false⟩ = some st ∧
      L.tail.Perm ((st.minM.filter fun pv => pv.1 ≠ target.path).map
        fun pv => (⟨pv.1, pv.2⟩ : Version)) := by
  obtain ⟨st, he, hf, hok⟩ := buildList_ok_state h
  obtain ⟨hroot, _hchecks, hL⟩ := finalize_ok hf
  subst hL
  set src := (st.minM.filter fun pv => pv.1 ≠ target.path).map
    (fun pv => (⟨pv.1, pv.2⟩ : Version)) with hsrc
  have hperm : (sortByPath src).Perm src := List.perm_insertionSort byPath src
  have hmemsrc : ∀ m ∈ src, m.path ≠ target.path ∧ lookupA m.path st.minM = some m.version := by
    intro m hm
    rw [hsrc] at hm
    obtain ⟨pv, hpv, hpv2⟩ := List.mem_map.1 hm
    have hmem : pv ∈ st.minM := List.mem_of_mem_filter hpv
    have hpred : pv.1 ≠ target.path := by
      have := List.of_mem_filter hpv
      simpa using this
    subst hpv2
    exact ⟨hpred, lookupA_of_mem hok.1 (by simpa using hmem)⟩
  have hsrcnodup : (src.map Version.path).Nodup := by
    rw [hsrc, List.map_map]
    have : ((st.minM.filter fun pv => pv.1 ≠ target.path).map
        (Version.path ∘ fun pv => (⟨pv.1, pv.2⟩ : Version))) =
        (st.minM.filter fun pv => pv.1 ≠ target.path).map Prod.fst := by
      apply List.map_congr_left
      intro pv _
      rfl
    rw [this]
    have hsub : (st.minM.filter fun pv => pv.1 ≠ target.path).Sublist st.minM :=
      List.filter_sublist _
    exact (hok.1).sublist (hsub.map Prod.fst)
  refine ⟨rfl, ?_, ?_, ?_, st, he, by exact hperm⟩
  · haveI : IsTotal Version byPath := ⟨fun a b => strLe_total a.path b.path⟩
    haveI : IsTrans Version byPath := ⟨fun _ _ _ h1 h2 => strLe_trans h1 h2⟩
    have hsorted : (sortByPath src).Pairwise byPath :=
      List.sorted_insertionSort byPath src
    have hnd : ((sortByPath src).map Version.path).Nodup := by
      have := (hperm.map Version.path).nodup_iff
      exact this.2 hsrcnodup
    have hne : (sortByPath src).Pairwise (fun a b => a.path ≠ b.path) :=
      (List.pairwise_map).1 hnd
    have := hsorted.and hne
    simp only [List.tail_cons]
    exact this.imp (fun hab => ⟨hab.1, hab.2⟩)
  · intro m hm
    rcases List.mem_cons.1 hm with h1 | h2
    · subst h1
      exact minOK_root_version hok hroot
    · have hm2 : m ∈ src := hperm.mem_iff.1 h2
      obtain ⟨_, hl⟩ := hmemsrc m hm2
      exact (hok.2 _ _ hl).1
  · intro m hm
    simp only [List.tail_cons] at hm
    exact (hmemsrc m (hperm.mem_iff.1 hm)).1

/-- Claim C2: for every successful buildList call (hence BuildList,
UpgradeAll, Upgrade), the returned list has the root as its first element;
the remaining elements are one entry per selected non-root path, in
strictly ascending lexicographic path order (so every path appears at most
once), none of them using the root path; and no element of the output has
version none. -/
theorem buildList_output_shape (target : Version) (reqs : Reqs)
    (upg : Option (Version → Except String Version)) (fuel : Nat) (L : List Version)
    (h : buildList target reqs upg fuel = .ok L) :
    L.head? = some target ∧
    L.tail.Pairwise (fun a b => strLe a.path b.path = true ∧ a.path ≠ b.path) ∧
    (∀ m ∈ L, m.version ≠ "none") ∧
    (∀ m ∈ L.tail, m.path ≠ target.path) ∧
    ∃ st, explore reqs upg fuel [target] ⟨[], [], false⟩ = some st ∧
      L.tail.Perm ((st.minM.filter fun pv => pv.1 ≠ target.path).map
        fun pv => (⟨pv.1, pv.2⟩ : Version)) :=
  buildList_shape_aux target reqs upg fuel L h

theorem buildList_output_shape_witness :
    ([(⟨"T", "9"⟩ : Version), ⟨"B", "1"⟩, ⟨"C", "2"⟩].head? = some (⟨"T", "9"⟩ : Version)) ∧
    ([(⟨"T", "9"⟩ : Version), ⟨"B", "1"⟩, ⟨"C", "2"⟩].tail.Pairwise
      (fun a b => strLe a.path b.path = true ∧ a.path ≠ b.path)) := by
  have h := buildList_output_shape ⟨"T", "9"⟩ reqsS2 none 20
    [⟨"T", "9"⟩, ⟨"B", "1"⟩, ⟨"C", "2"⟩] (by rfl)
  exact ⟨h.1, h.2.1⟩

/-- Claim C8: during exploration a vertex with version none neither
updates the per-path maxima nor has its requirements fetched (under
BuildList the whole processing step is inert), and on scenario S3 the
none edge contributes nothing: the build list picks B at 2 from the C
edge. -/
theorem none_version_contributes_nothing :
    (∀ (reqs : Reqs) (minM : List (String × String)) (m : Version),
      m.version = "none" →
      processVertex reqs none minM m = ⟨minM, ⟨m, [], noVersion, none⟩, [], false⟩) ∧
    BuildList ⟨"T", "9"⟩ reqsS3 20 =
      .ok [⟨"T", "9"⟩, ⟨"B", "2"⟩, ⟨"C", "1"⟩] := by
  constructor
  · intro reqs minM m h
    unfold processVertex updateMin stepUpgrade
    simp [h]
  · rfl

theorem none_version_contributes_nothing_witness :
    processVertex reqsS2 none [] ⟨"B", "none"⟩ =
      ⟨[], ⟨⟨"B", "none"⟩, [], noVersion, none⟩, [], false⟩ :=
  none_version_contributes_nothing.1 reqsS2 [] ⟨"B", "none"⟩ rfl

/-- Counterexample to claim C6 as stated: the hook passed by UpgradeAll
does not deviate from the provider only on the root; it overrides every
version sharing the root path.  Here the provider maps T at 5 to itself,
yet the hook sends it to the root T at 9. -/
theorem upgradeAllFn_overrides_same_path_nonroot :
    upgradeAllFn ⟨"T", "9"⟩ reqsUA ⟨"T", "5"⟩ = .ok ⟨"T", "9"⟩ ∧
    reqsUA.upgrade ⟨"T", "5"⟩ = .ok ⟨"T", "5"⟩ ∧
    (⟨"T", "5"⟩ : Version) ≠ ⟨"T", "9"⟩ :=
  ⟨rfl, rfl, by decide⟩

/-- Claim C6 (amended): the hook passed by UpgradeAll maps the root (and
every version sharing the root path) to the root itself, so on success
the root heads the output unchanged and no other output entry uses the
root path, regardless of what the provider upgrade would return. -/
theorem upgradeAll_preserves_root (target : Version) (reqs : Reqs) (fuel : Nat)
    (L : List Version) (h : UpgradeAll target reqs fuel = .ok L) :
    upgradeAllFn target reqs target = .ok target ∧
    (∀ m : Version, m.path = target.path → upgradeAllFn target reqs m = .ok target) ∧
    L.head? = some target ∧
    (∀ m ∈ L, m.path = target.path → m = target) := by
  have h' : buildList target reqs (some (upgradeAllFn target reqs)) fuel = .ok L := h
  obtain ⟨hhead, _, _, htail, _⟩ := buildList_shape_aux _ _ _ _ _ h'
  refine ⟨?_, ?_, hhead, ?_⟩
  · unfold upgradeAllFn
    rw [if_pos rfl]
  · intro m hm
    unfold upgradeAllFn
    rw [if_pos hm]
  · intro m hm hpm
    cases L with
    | nil => simp at hhead
    | cons a t =>
      have ha : a = target := by simpa using hhead
      rcases List.mem_cons.1 hm with h1 | h2
      · exact h1.trans ha
      · exact absurd hpm (htail m (by simpa using h2))

theorem upgradeAll_preserves_root_witness :
    upgradeAllFn ⟨"T", "9"⟩ reqsUA ⟨"T", "9"⟩ = .ok ⟨"T", "9"⟩ ∧
    ([(⟨"T", "9"⟩ : Version), ⟨"A", "2"⟩].head? = some (⟨"T", "9"⟩ : Version)) := by
  have h := upgradeAll_preserves_root ⟨"T", "9"⟩ reqsUA 20
    [⟨"T", "9"⟩, ⟨"A", "2"⟩] (by rfl)
  exact ⟨h.1, h.2.2.1⟩

/-- Counterexample to claim C9 as stated: a previous failure during
Downgrade is not captured on a vertex and reported as a typed build list
error after exploration drains; Downgrade returns the raw provider error
immediately. -/
theorem downgrade_previous_error_returned_raw :
    Downgrade ⟨"T", "9"⟩ reqsDGE [⟨"A", "1"⟩] 50 = .error (.plain "E") ∧
    resultBuildListE (Downgrade ⟨"T", "9"⟩ reqsDGE [⟨"A", "1"⟩] 50) = false :=
  ⟨rfl, rfl⟩

/-- Claim C9 (amended): when a previous call fails during the downgrade
lowering loop, the failure is returned directly as the raw provider
error, aborting Downgrade at once; concretely the downgrade scenario with
a failing previous ends in that raw error. -/
theorem downgrade_previous_error_immediate :
    (∀ (reqs : Reqs) (capM : List (String × String)) (fuel : Nat) (r : Version)
      (st : DgSt) (e : String),
      r ∈ st.excluded → reqs.previous r = .error e →
      dgFix reqs capM (fuel + 1) r st = .error (.plain e)) ∧
    Downgrade ⟨"T", "9"⟩ reqsDGE [⟨"A", "1"⟩] 50 = .error (.plain "E") := by
  constructor
  · intro reqs capM fuel r st e hr he
    unfold dgFix
    rw [if_pos hr, he]
  · rfl

theorem downgrade_previous_error_immediate_witness :
    dgFix reqsDGE [("A", "1")] (9 + 1) ⟨"A", "3"⟩ ⟨[⟨"A", "3"⟩], [⟨"A", "3"⟩], []⟩ =
      .error (.plain "E") :=
  downgrade_previous_error_immediate.1 reqsDGE [("A", "1")] 9 ⟨"A", "3"⟩
    ⟨[⟨"A", "3"⟩], [⟨"A", "3"⟩], []⟩ "E" (by decide) rfl

/-- Counterexample to claim C10 as stated: with two extras entries on the
root path, the hook applied to the root returns the comparator fold of
both versions, not the version of each individual entry; the entry R at 2
is mapped to R at 3. -/
theorem upgrade_duplicate_extras_max_folded :
    upgradeFnOf (upgradeToM reqsS2 [⟨"R", "2"⟩, ⟨"R", "3"⟩]) ⟨"R", "1"⟩ =
      .ok ⟨"R", "3"⟩ ∧
    (⟨"R", "2"⟩ : Version) ∈ [(⟨"R", "2"⟩ : Version), ⟨"R", "3"⟩] ∧
    ("2" : String) ≠ "1" ∧ ((⟨"R", "3"⟩ : Version) ≠ ⟨"R", "2"⟩) :=
  ⟨rfl, by decide, by decide, by decide⟩

theorem utm_skip (reqs : Reqs) (p : String) :
    ∀ (ups : List Version) (acc : List (String × String)),
      (∀ x ∈ ups, x.path ≠ p) →
      lookupA p (ups.foldl
        (fun acc u =>
          match lookupA u.path acc with
          | some prev => setA u.path (reqs.max prev u.version) acc
          | none => setA u.path u.version acc) acc) = lookupA p acc := by
  intro ups
  induction ups with
  | nil => intro acc _; rfl
  | cons x xs ih =>
    intro acc hne
    have hx : x.path ≠ p := hne x (List.mem_cons_self x xs)
    have hxs : ∀ y ∈ xs, y.path ≠ p := fun y hy => hne y (List.mem_cons_of_mem x hy)
    simp only [List.foldl_cons]
    rw [ih _ hxs]
    rcases hl : lookupA x.path acc with _ | prev <;> simp only [hl] <;>
      exact lookupA_setA_ne _ _ _ _ (fun he => hx he.symm)

theorem utm_single (reqs : Reqs) (p : String) :
    ∀ (ups : List Version) (acc : List (String × String)) (u : Version),
      ups.filter (fun x => x.path = p) = [u] →
      lookupA p acc = none →
      lookupA p (ups.foldl
        (fun acc u =>
          match lookupA u.path acc with
          | some prev => setA u.path (reqs.max prev u.version) acc
          | none => setA u.path u.version acc) acc) = some u.version := by
  intro ups
  induction ups with
  | nil => intro acc u hf _; simp at hf
  | cons x xs ih =>
    intro acc u hf hacc
    by_cases hx : x.path = p
    · rw [List.filter_cons_of_pos (by simpa using hx)] at hf
      have hxu : x = u := by
        have := List.head_eq_of_cons_eq hf
        exact this
      have htail : xs.filter (fun y => y.path = p) = [] :=
        List.tail_eq_of_cons_eq hf
      have hxs : ∀ y ∈ xs, y.path ≠ p := by
        intro y hy
        have := List.filter_eq_nil.1 htail y hy
        simpa using this
      simp only [List.foldl_cons]
      rw [utm_skip reqs p xs _ hxs]
      subst hx
      rw [hacc]
      simp only []
      rw [lookupA_setA_self]
      rw [hxu]
    · rw [List.filter_cons_of_neg (by simpa using hx)] at hf
      simp only [List.foldl_cons]
      have hacc2 : lookupA p
          (match lookupA x.path acc with
          | some prev => setA x.path (reqs.max prev x.version) acc
          | none => setA x.path x.version acc) = none := by
        rcases hl : lookupA x.path acc with _ | prev <;> simp only [hl] <;>
          rw [lookupA_setA_ne _ _ _ _ (fun he => hx he.symm)] <;> exact hacc
      exact ih _ u hf hacc2

/-- Claim C10 (amended): the hook built by Upgrade consults only the
module path against the extras table, with no root exemption: whenever u
is the sole extras entry carrying the root path, the hook applied to the
root returns the pair of the root path and the version of u, which
differs from the root itself when the versions differ. -/
theorem upgradeFn_no_root_exemption (reqs : Reqs) (root : Version)
    (ups : List Version) (u : Version)
    (hf : ups.filter (fun x => x.path = root.path) = [u])
    (hv : u.version ≠ root.version) :
    upgradeFnOf (upgradeToM reqs ups) root = .ok ⟨root.path, u.version⟩ ∧
    (⟨root.path, u.version⟩ : Version) ≠ root := by
  have hl : lookupA root.path (upgradeToM reqs ups) = some u.version :=
    utm_single reqs root.path ups [] u hf rfl
  constructor
  · unfold upgradeFnOf
    rw [hl]
  · intro he
    have hvv := congrArg Version.version he
    exact hv hvv

theorem MaxOrder.le_refl' {mx : String → String → String} (h : MaxOrder mx) (a : String) :
    Le mx a a := by
  rcases h.choice a a with h1 | h1 <;> exact h1

theorem MaxOrder.le_trans' {mx : String → String → String} (h : MaxOrder mx)
    {a b c : String} (h1 : Le mx a b) (h2 : Le mx b c) : Le mx a c := by
  unfold Le at *
  calc mx a c = mx a (mx b c) := by rw [h2]
    _ = mx (mx a b) c := (h.assoc a b c).symm
    _ = mx b c := by rw [h1]
    _ = c := h2

theorem MaxOrder.le_of_ne {mx : String → String → String} (h : MaxOrder mx)
    {a b : String} (hne : mx a b ≠ a) : Le mx a b :=
  (h.choice a b).resolve_left hne

theorem MaxOrder.le_of_eq_comm {mx : String → String → String} (h : MaxOrder mx)
    {a b : String} (he : mx a b = a) : Le mx b a := by
  unfold Le
  rw [h.comm]
  exact he

theorem updateMin_lookup_ne (reqs : Reqs) (minM : List (String × String)) (m : Version)
    (p : String) (hp : p ≠ m.path) :
    lookupA p (updateMin reqs minM m) = lookupA p minM := by
  unfold updateMin
  by_cases hn : m.version = "none"
  · rw [if_pos hn]
  · rw [if_neg hn]
    rcases hl : lookupA m.path minM with _ | w <;> simp only [hl]
    · exact lookupA_setA_ne _ _ _ _ hp
    · by_cases hg : reqs.max w m.version ≠ w
      · rw [if_pos hg]
        exact lookupA_setA_ne _ _ _ _ hp
      · rw [if_neg hg]

theorem updateMin_self_le {reqs : Reqs} (hmo : MaxOrder reqs.max)
    (minM : List (String × String)) (m : Version) (hn : m.version ≠ "none") :
    ∃ v, lookupA m.path (updateMin reqs minM m) = some v ∧ Le reqs.max m.version v := by
  unfold updateMin
  rw [if_neg hn]
  rcases hl : lookupA m.path minM with _ | w <;> simp only [hl]
  · exact ⟨m.version, lookupA_setA_self _ _ _, hmo.le_refl' _⟩
  · by_cases hg : reqs.max w m.version ≠ w
    · rw [if_pos hg]
      exact ⟨m.version, lookupA_setA_self _ _ _, hmo.le_refl' _⟩
    · rw [if_neg hg]
      push_neg at hg
      exact ⟨w, hl, hmo.le_of_eq_comm hg⟩

theorem updateMin_le_mono {reqs : Reqs} (hmo : MaxOrder reqs.max)
    (minM : List (String × String)) (m : Version) (p : String) (v : String)
    (hl : lookupA p minM = some v) :
    ∃ v2, lookupA p (updateMin reqs minM m) = some v2 ∧ Le reqs.max v v2 := by
  by_cases hp : p = m.path
  · subst hp
    unfold updateMin
    by_cases hn : m.version = "none"
    · rw [if_pos hn]
      exact ⟨v, hl, hmo.le_refl' _⟩
    · rw [if_neg hn]
      simp only [hl]
      by_cases hg : reqs.max v m.version ≠ v
      · rw [if_pos hg]
        exact ⟨m.version, lookupA_setA_self _ _ _, hmo.le_of_ne hg⟩
      · rw [if_neg hg]
        exact ⟨v, hl, hmo.le_refl' _⟩
  · rw [updateMin_lookup_ne reqs minM m p hp]
    exact ⟨v, hl, hmo.le_refl' _⟩

theorem updateMin_pin {reqs : Reqs} {target : Version}
    (hc : ∀ v, reqs.max target.version v = target.version)
    (minM : List (String × String)) (m : Version)
    (hpin : lookupA target.path minM = some target.version) :
    lookupA target.path (updateMin reqs minM m) = some target.version := by
  by_cases hp : target.path = m.path
  · unfold updateMin
    by_cases hn : m.version = "none"
    · rw [if_pos hn]; exact hpin
    · rw [if_neg hn]
      have hpin2 : lookupA m.path minM = some target.version := by
        rw [← hp]; exact hpin
      simp only [hpin2]
      rw [if_neg (by simp [hc m.version])]
      exact hpin
  · rw [updateMin_lookup_ne reqs minM m target.path hp]
    exact hpin

theorem stepUpgrade_node_m (upg : Option (Version → Except String Version)) (m : Version)
    (minM : List (String × String)) (node : Node) (items : List Version) :
    (stepUpgrade upg m minM node items).node.m = node.m := by
  unfold stepUpgrade
  cases upg with
  | none => rfl
  | some f =>
    rcases hf : f m with e | u <;> simp only [hf]
    by_cases h : u = m <;> simp [h]

theorem stepUpgrade_node_required (upg : Option (Version → Except String Version))
    (m : Version) (minM : List (String × String)) (node : Node) (items : List Version) :
    (stepUpgrade upg m minM node items).node.required = node.required := by
  unfold stepUpgrade
  cases upg with
  | none => rfl
  | some f =>
    rcases hf : f m with e | u <;> simp only [hf]
    by_cases h : u = m <;> simp [h]

theorem stepUpgrade_items_sup (upg : Option (Version → Except String Version))
    (m : Version) (minM : List (String × String)) (node : Node) (items : List Version) :
    ∀ r ∈ items, r ∈ (stepUpgrade upg m minM node items).items := by
  intro r hr
  unfold stepUpgrade
  cases upg with
  | none => exact hr
  | some f =>
    rcases hf : f m with e | u <;> simp only [hf]
    · exact hr
    · by_cases h : u = m <;> simp [h, hr]

theorem stepUpgrade_err (upg : Option (Version → Except String Version))
    (m : Version) (minM : List (String × String)) (node : Node) (items : List Version)
    (h : (stepUpgrade upg m minM node items).errd = false) :
    (stepUpgrade upg m minM node items).node.err = node.err := by
  unfold stepUpgrade at *
  cases upg with
  | none => rfl
  | some f =>
    rcases hf : f m with e | u <;> simp only [hf] at h ⊢
    · simp at h
    · by_cases hu : u = m <;> simp [hu]

theorem processVertex_node_m (reqs : Reqs) (upg : Option (Version → Except String Version))
    (minM : List (String × String)) (m : Version) :
    (processVertex reqs upg minM m).node.m = m := by
  unfold processVertex
  by_cases hn : m.version = "none"
  · rw [if_pos hn]
    rw [stepUpgrade_node_m]
  · rw [if_neg hn]
    rcases hr : reqs.required m with e | l <;> simp only [hr]
    rw [stepUpgrade_node_m]

theorem processVertex_required_none (reqs : Reqs)
    (upg : Option (Version → Except String Version)) (minM : List (String × String))
    (m : Version) (hn : m.version = "none") :
    (processVertex reqs upg minM m).node.required = [] := by
  unfold processVertex
  rw [if_pos hn]
  rw [stepUpgrade_node_required]

theorem processVertex_required_okl (reqs : Reqs)
    (upg : Option (Version → Except String Version)) (minM : List (String × String))
    (m : Version) (l : List Version) (hn : m.version ≠ "none")
    (hr : reqs.required m = .ok l) :
    (processVertex reqs upg minM m).node.required = l := by
  unfold processVertex
  rw [if_neg hn]
  simp only [hr]
  rw [stepUpgrade_node_required]

theorem processVertex_required_sub_items (reqs : Reqs)
    (upg : Option (Version → Except String Version)) (minM : List (String × String))
    (m : Version) :
    ∀ r ∈ (processVertex reqs upg minM m).node.required,
      r ∈ (processVertex reqs upg minM m).items := by
  intro r hr
  unfold processVertex at *
  by_cases hn : m.version = "none"
  · rw [if_pos hn] at hr ⊢
    rw [stepUpgrade_node_required] at hr
    simp at hr
  · rw [if_neg hn] at hr ⊢
    rcases hreq : reqs.required m with e | l <;> simp only [hreq] at hr ⊢
    · simp at hr
    · rw [stepUpgrade_node_required] at hr
      exact stepUpgrade_items_sup upg m _ _ l r hr

theorem processVertex_errd_false_err (reqs : Reqs)
    (upg : Option (Version → Except String Version)) (minM : List (String × String))
    (m : Version) (h : (processVertex reqs upg minM m).errd = false) :
    (processVertex reqs upg minM m).node.err = none := by
  unfold processVertex at *
  by_cases hn : m.version = "none"
  · rw [if_pos hn] at h ⊢
    rw [stepUpgrade_err _ _ _ _ _ h]
  · rw [if_neg hn] at h ⊢
    rcases hreq : reqs.required m with e | l <;> simp only [hreq] at h ⊢
    · simp at h
    · rw [stepUpgrade_err _ _ _ _ _ h]

theorem processVertex_items_none_upg (reqs : Reqs) (minM : List (String × String))
    (m : Version) :
    (processVertex reqs none minM m).items = [] ∨
    (m.version ≠ "none" ∧ ∃ l, reqs.required m = .ok l ∧
      (processVertex reqs none minM m).items = l) := by
  unfold processVertex
  by_cases hn : m.version = "none"
  · rw [if_pos hn]
    exact Or.inl rfl
  · rw [if_neg hn]
    rcases hreq : reqs.required m with e | l <;> simp only [hreq]
    · simp
    · exact Or.inr ⟨hn, l, rfl, rfl⟩

theorem lookupA_single_self {α β : Type} [DecidableEq α] {k : α} {v : β} :
    lookupA k [(k, v)] = some v := by
  simp [lookupA]

theorem lookupA_append_cases {α β : Type} [DecidableEq α] {k : α} {l r : List (α × β)}
    {v : β} (h : lookupA k (l ++ r) = some v) :
    lookupA k l = some v ∨ (lookupA k l = none ∧ lookupA k r = some v) := by
  rw [lookupA_append] at h
  rcases hl : lookupA k l with _ | w
  · rw [hl] at h
    exact Or.inr ⟨rfl, h⟩
  · rw [hl] at h
    exact Or.inl h

theorem explore_haveErr_mono (reqs : Reqs) (upg : Option (Version → Except String Version)) :
    ∀ (fuel : Nat) (q : List Version) (st st' : ExpSt),
      explore reqs upg fuel q st = some st' → st.haveErr = true → st'.haveErr = true := by
  intro fuel
  induction fuel with
  | zero => intro q st st' h; simp [explore] at h
  | succ n ih =>
    intro q st st' h hb
    cases q with
    | nil =>
      simp [explore] at h
      rw [← h]
      exact hb
    | cons m rest =>
      unfold explore at h
      rcases hl : lookupA m st.graph with _ | nd <;> rw [hl] at h
      · exact ih _ _ _ h (by simp [hb])
      · exact ih _ _ _ h hb

theorem explore_haveErr_back {reqs : Reqs} {upg : Option (Version → Except String Version)}
    {fuel : Nat} {q : List Version} {st st' : ExpSt}
    (h : explore reqs upg fuel q st = some st') (hb : st'.haveErr = false) :
    st.haveErr = false := by
  by_contra hc
  rw [explore_haveErr_mono reqs upg fuel q st st' h (by simpa using hc)] at hb
  exact Bool.noConfusion hb

theorem explore_graphSpec (reqs : Reqs) (upg : Option (Version → Except String Version)) :
    ∀ (fuel : Nat) (q : List Version) (st st' : ExpSt),
      explore reqs upg fuel q st = some st' → GraphSpec reqs st → GraphSpec reqs st' := by
  intro fuel
  induction fuel with
  | zero => intro q st st' h; simp [explore] at h
  | succ n ih =>
    intro q st st' h hgs
    cases q with
    | nil =>
      simp [explore] at h
      rw [← h]
      exact hgs
    | cons m rest =>
      unfold explore at h
      rcases hl : lookupA m st.graph with _ | nd <;> rw [hl] at h
      · refine ih _ _ _ h ?_
        intro x nd hx
        rcases lookupA_append_cases hx with hold | ⟨_, hnew⟩
        · exact hgs x nd hold
        · have hxm : m = x ∧ nd = (processVertex reqs upg st.minM m).node := by
            by_cases he : m = x
            · subst he
              rw [lookupA_single_self] at hnew
              exact ⟨rfl, (Option.some.inj hnew).symm⟩
            · simp [lookupA, he] at hnew
          obtain ⟨he, hnd⟩ := hxm
          subst he
          subst hnd
          refine ⟨processVertex_node_m reqs upg st.minM m, ?_, ?_⟩
          · intro hvn
            exact processVertex_required_none reqs upg st.minM m hvn
          · intro l hvn hreq
            exact processVertex_required_okl reqs upg st.minM m l hvn hreq
      · exact ih _ _ _ h hgs

theorem explore_childrenInv (reqs : Reqs) (upg : Option (Version → Except String Version)) :
    ∀ (fuel : Nat) (q : List Version) (st st' : ExpSt),
      explore reqs upg fuel q st = some st' → ChildrenInv st q → ChildrenInv st' [] := by
  intro fuel
  induction fuel with
  | zero => intro q st st' h; simp [explore] at h
  | succ n ih =>
    intro q st st' h hci
    cases q with
    | nil =>
      simp [explore] at h
      rw [← h]
      intro x nd hx r hr
      rcases hci x nd hx r hr with hg | he
      · exact Or.inl hg
      · simp at he
    | cons m rest =>
      unfold explore at h
      rcases hl : lookupA m st.graph with _ | nd0 <;> rw [hl] at h
      · refine ih _ _ _ h ?_
        intro x nd hx r hr
        rcases lookupA_append_cases hx with hold | ⟨_, hnew⟩
        · rcases hci x nd hold r hr with ⟨nd2, hg⟩ | he
          · exact Or.inl ⟨nd2, lookupA_append_left _ hg⟩
          · rcases List.mem_cons.1 he with he1 | he2
            · subst he1
              refine Or.inl ⟨(processVertex reqs upg st.minM r).node, ?_⟩
              rw [lookupA_append_right _ hl]
              exact lookupA_single_self
            · exact Or.inr (List.mem_append_left _ he2)
        · have hxm : m = x ∧ nd = (processVertex reqs upg st.minM m).node := by
            by_cases he : m = x
            · subst he
              rw [lookupA_single_self] at hnew
              exact ⟨rfl, (Option.some.inj hnew).symm⟩
            · simp [lookupA, he] at hnew
          obtain ⟨he, hnd⟩ := hxm
          subst he
          subst hnd
          exact Or.inr (List.mem_append_right _
            (processVertex_required_sub_items reqs upg st.minM m r hr))
      · refine ih _ _ _ h ?_
        intro x nd hx r hr
        rcases hci x nd hx r hr with hg | he
        · exact Or.inl hg
        · rcases List.mem_cons.1 he with he1 | he2
          · subst he1
            exact Or.inl ⟨nd0, hl⟩
          · exact Or.inr he2

theorem explore_errFree (reqs : Reqs) (upg : Option (Version → Except String Version)) :
    ∀ (fuel : Nat) (q : List Version) (st st' : ExpSt),
      explore reqs upg fuel q st = some st' → st'.haveErr = false →
      ErrFreeG st → ErrFreeG st' := by
  intro fuel
  induction fuel with
  | zero => intro q st st' h; simp [explore] at h
  | succ n ih =>
    intro q st st' h hb hef
    cases q with
    | nil =>
      simp [explore] at h
      rw [← h]
      exact hef
    | cons m rest =>
      unfold explore at h
      rcases hl : lookupA m st.graph with _ | nd0 <;> rw [hl] at h
      · have hb1 : (st.haveErr || (processVertex reqs upg st.minM m).errd) = false :=
          explore_haveErr_back h hb
        have herrd : (processVertex reqs upg st.minM m).errd = false := by
          rcases Bool.or_eq_false_iff.1 hb1 with ⟨_, h2⟩
          exact h2
        refine ih _ _ _ h hb ?_
        intro x nd hx
        rcases lookupA_append_cases hx with hold | ⟨_, hnew⟩
        · exact hef x nd hold
        · have hxm : m = x ∧ nd = (processVertex reqs upg st.minM m).node := by
            by_cases he : m = x
            · subst he
              rw [lookupA_single_self] at hnew
              exact ⟨rfl, (Option.some.inj hnew).symm⟩
            · simp [lookupA, he] at hnew
          obtain ⟨he, hnd⟩ := hxm
          subst he
          subst hnd
          exact processVertex_errd_false_err reqs upg st.minM m herrd
      · exact ih _ _ _ h hb hef

theorem explore_maxle {reqs : Reqs} (hmo : MaxOrder reqs.max)
    (upg : Option (Version → Except String Version)) :
    ∀ (fuel : Nat) (q : List Version) (st st' : ExpSt),
      explore reqs upg fuel q st = some st' → MaxleInv reqs st → MaxleInv reqs st' := by
  intro fuel
  induction fuel with
  | zero => intro q st st' h; simp [explore] at h
  | succ n ih =>
    intro q st st' h hmi
    cases q with
    | nil =>
      simp [explore] at h
      rw [← h]
      exact hmi
    | cons m rest =>
      unfold explore at h
      rcases hl : lookupA m st.graph with _ | nd0 <;> rw [hl] at h
      · refine ih _ _ _ h ?_
        intro x nd hx hv
        rcases lookupA_append_cases hx with hold | ⟨_, hnew⟩
        · obtain ⟨v, hlv, hle⟩ := hmi x nd hold hv
          obtain ⟨v2, hlv2, hle2⟩ := updateMin_le_mono hmo st.minM m x.path v hlv
          refine ⟨v2, ?_, hmo.le_trans' hle hle2⟩
          show lookupA x.path (processVertex reqs upg st.minM m).minM = some v2
          rw [processVertex_minM]
          exact hlv2
        · have hxm : m = x := by
            by_cases he : m = x
            · exact he
            · simp [lookupA, he] at hnew
          subst hxm
          obtain ⟨v, hlv, hle⟩ := updateMin_self_le hmo st.minM m hv
          refine ⟨v, ?_, hle⟩
          show lookupA m.path (processVertex reqs upg st.minM m).minM = some v
          rw [processVertex_minM]
          exact hlv
      · exact ih _ _ _ h hmi

theorem explore_minPin {reqs : Reqs} {target : Version}
    (hc : ∀ v, reqs.max target.version v = target.version)
    (upg : Option (Version → Except String Version)) :
    ∀ (fuel : Nat) (q : List Version) (st st' : ExpSt),
      explore reqs upg fuel q st = some st' →
      lookupA target.path st.minM = some target.version →
      lookupA target.path st'.minM = some target.version := by
  intro fuel
  induction fuel with
  | zero => intro q st st' h; simp [explore] at h
  | succ n ih =>
    intro q st st' h hpin
    cases q with
    | nil =>
      simp [explore] at h
      rw [← h]
      exact hpin
    | cons m rest =>
      unfold explore at h
      rcases hl : lookupA m st.graph with _ | nd0 <;> rw [hl] at h
      · refine ih _ _ _ h ?_
        show lookupA target.path (processVertex reqs upg st.minM m).minM = some target.version
        rw [processVertex_minM]
        exact updateMin_pin hc st.minM m hpin
      · exact ih _ _ _ h hpin

theorem explore_all_in_graph (reqs : Reqs) (upg : Option (Version → Except String Version)) :
    ∀ (fuel : Nat) (q : List Version) (st st' : ExpSt),
      explore reqs upg fuel q st = some st' →
      ∀ x ∈ q, ∃ nd, lookupA x st'.graph = some nd := by
  intro fuel
  induction fuel with
  | zero => intro q st st' h; simp [explore] at h
  | succ n ih =>
    intro q st st' h x hx
    cases q with
    | nil => simp at hx
    | cons m rest =>
      unfold explore at h
      rcases hl : lookupA m st.graph with _ | nd0 <;> rw [hl] at h
      · rcases List.mem_cons.1 hx with he | hr
        · subst he
          refine ⟨(processVertex reqs upg st.minM x).node, ?_⟩
          refine explore_graph_mono h ?_
          rw [lookupA_append_right _ hl]
          exact lookupA_single_self
        · exact ih _ _ _ h x (List.mem_append_left _ hr)
      · rcases List.mem_cons.1 hx with he | hr
        · subst he
          exact ⟨nd0, explore_graph_mono h hl⟩
        · exact ih _ _ _ h x hr

theorem explore_provenance (reqs : Reqs) (target : Version) :
    ∀ (fuel : Nat) (q : List Version) (st st' : ExpSt),
      explore reqs none fuel q st = some st' →
      (∀ x ∈ q, ReachR reqs target x) →
      (∀ x ∈ q, x = target ∨ EdgeTo reqs target x) →
      (∀ x nd, lookupA x st.graph = some nd → ReachR reqs target x) →
      (∀ x nd, lookupA x st.graph = some nd → x = target ∨ EdgeTo reqs target x) →
      ∀ x nd, lookupA x st'.graph = some nd →
        ReachR reqs target x ∧ (x = target ∨ EdgeTo reqs target x) := by
  intro fuel
  induction fuel with
  | zero => intro q st st' h; simp [explore] at h
  | succ n ih =>
    intro q st st' h hq1 hq2 hg1 hg2
    cases q with
    | nil =>
      simp [explore] at h
      rw [← h]
      intro x nd hx
      exact ⟨hg1 x nd hx, hg2 x nd hx⟩
    | cons m rest =>
      unfold explore at h
      rcases hl : lookupA m st.graph with _ | nd0 <;> rw [hl] at h
      · have hmr : ReachR reqs target m := hq1 m (List.mem_cons_self m rest)
        have hitems : ∀ r ∈ (processVertex reqs none st.minM m).items,
            ReachR reqs target r ∧ EdgeTo reqs target r := by
          intro r hr
          rcases processVertex_items_none_upg reqs st.minM m with hnil | ⟨hn, l, hreq, heq⟩
          · rw [hnil] at hr
            simp at hr
          · rw [heq] at hr
            exact ⟨ReachR.step m l r hmr hn hreq hr, ⟨m, l, hmr, hn, hreq, hr⟩⟩
        refine ih _ _ _ h ?_ ?_ ?_ ?_
        · intro x hx
          rcases List.mem_append.1 hx with hx1 | hx2
          · exact hq1 x (List.mem_cons_of_mem m hx1)
          · exact (hitems x hx2).1
        · intro x hx
          rcases List.mem_append.1 hx with hx1 | hx2
          · exact hq2 x (List.mem_cons_of_mem m hx1)
          · exact Or.inr (hitems x hx2).2
        · intro x nd hx
          rcases lookupA_append_cases hx with hold | ⟨_, hnew⟩
          · exact hg1 x nd hold
          · have hxm : m = x := by
              by_cases he : m = x
              · exact he
              · simp [lookupA, he] at hnew
            subst hxm
            exact hmr
        · intro x nd hx
          rcases lookupA_append_cases hx with hold | ⟨_, hnew⟩
          · exact hg2 x nd hold
          · have hxm : m = x := by
              by_cases he : m = x
              · exact he
              · simp [lookupA, he] at hnew
            subst hxm
            exact hq2 m (List.mem_cons_self m rest)
      · refine ih _ _ _ h ?_ ?_ hg1 hg2
        · intro x hx
          exact hq1 x (List.mem_cons_of_mem m hx)
        · intro x hx
          exact hq2 x (List.mem_cons_of_mem m hx)

theorem reach_in_graph {reqs : Reqs} {target : Version} {st : ExpSt}
    (hgs : GraphSpec reqs st) (hci : ChildrenInv st [])
    (hroot : ∃ nd0, lookupA target st.graph = some nd0) :
    ∀ x, ReachR reqs target x → ∃ nd, lookupA x st.graph = some nd := by
  intro x hx
  induction hx with
  | root => exact hroot
  | step u l r _ hn hreq hm ih =>
    obtain ⟨ndu, hndu⟩ := ih
    have hreql : ndu.required = l := (hgs u ndu hndu).2.2 l hn hreq
    rcases hci u ndu hndu r (by rw [hreql]; exact hm) with hg | he
    · exact hg
    · simp at he

theorem maxOrder_mxS : MaxOrder mxS := by
  refine ⟨?_, ?_, ?_⟩
  · intro a b
    unfold mxS
    by_cases h : strLe a b = true <;> simp [h]
  · intro a b
    unfold mxS
    by_cases h1 : strLe a b = true <;> by_cases h2 : strLe b a = true <;> simp [h1, h2]
    · exact (strLe_antisymm h1 h2).symm
    · rcases strLe_total a b with h | h
      · exact absurd h h1
      · exact absurd h h2
  · intro a b c
    unfold mxS
    by_cases h1 : strLe a b = true <;> by_cases h2 : strLe b c = true
    · simp [h1, h2, strLe_trans h1 h2]
    · simp [h1, h2]
    · simp [h1, h2]
    · have hba := (strLe_total a b).resolve_left h1
      have hcb := (strLe_total b c).resolve_left h2
      have hac : ¬ strLe a c = true := by
        intro hac
        have hca : strLe c a = true := strLe_trans hcb hba
        have heq : a = c := strLe_antisymm hac hca
        rw [← heq] at hcb
        exact h1 hcb
      simp [h1, h2, hac]

/-- Claim C1: for every acyclic requirement graph over an order-like
comparator on which BuildList succeeds, and for every non-root path p in
the returned list, the version returned for p is itself the version of
some requirement edge into p of the reachable subgraph, and dominates
(under the comparator) every version v carried by an edge (u, (p, v))
with v not none lying in the reachable subgraph. -/
theorem buildList_selects_max_edge_version (target : Version) (reqs : Reqs)
    (fuel : Nat) (L : List Version) (p v : String)
    (hmo : MaxOrder reqs.max)
    (h : buildList target reqs none fuel = .ok L)
    (hp : p ≠ target.path)
    (hmem : (⟨p, v⟩ : Version) ∈ L) :
    EdgeVer reqs target p v ∧ ∀ w, EdgeVer reqs target p w → Le reqs.max w v := by
  obtain ⟨st, he, hf, hok⟩ := buildList_ok_state h
  obtain ⟨hroot, _hchecks, hL⟩ := finalize_ok hf
  -- locate the binding of p in the final per-path maxima
  have hlook : lookupA p st.minM = some v := by
    subst hL
    rcases List.mem_cons.1 hmem with h1 | h2
    · exact absurd (congrArg Version.path h1) hp
    · have hperm := List.perm_insertionSort byPath
        ((st.minM.filter fun pv => pv.1 ≠ target.path).map
          fun pv => (⟨pv.1, pv.2⟩ : Version))
      have h3 := hperm.mem_iff.1 h2
      obtain ⟨pv, hpv, hpv2⟩ := List.mem_map.1 h3
      have hmm : pv ∈ st.minM := List.mem_of_mem_filter hpv
      have hp1 : pv.1 = p := congrArg Version.path hpv2
      have hp2 : pv.2 = v := congrArg Version.version hpv2
      rw [← hp1, ← hp2]
      exact lookupA_of_mem hok.1 (by simpa using hmm)
  obtain ⟨hvn, ndpv, hndpv⟩ := hok.2 p v hlook
  -- invariants of the final state
  have hgs : GraphSpec reqs st :=
    explore_graphSpec reqs none fuel [target] _ st he
      (by intro x nd hx; simp [lookupA] at hx)
  have hci : ChildrenInv st [] :=
    explore_childrenInv reqs none fuel [target] _ st he
      (by intro x nd hx; simp [lookupA] at hx)
  have hmaxle : MaxleInv reqs st :=
    explore_maxle hmo none fuel [target] _ st he
      (by intro x nd hx; simp [lookupA] at hx)
  have hprov := explore_provenance reqs target fuel [target] _ st he
    (by intro x hx; simp at hx; rw [hx]; exact ReachR.root)
    (by intro x hx; simp at hx; exact Or.inl hx)
    (by intro x nd hx; simp [lookupA] at hx)
    (by intro x nd hx; simp [lookupA] at hx)
  have hrootg : ∃ nd0, lookupA target st.graph = some nd0 :=
    explore_all_in_graph reqs none fuel [target] _ st he target (by simp)
  constructor
  · -- the selected version is an edge version
    obtain ⟨_, hor⟩ := hprov ⟨p, v⟩ ndpv hndpv
    rcases hor with h1 | h2
    · exact absurd (congrArg Version.path h1) hp
    · exact ⟨hvn, h2⟩
  · -- it dominates every edge version of the path
    intro w hw
    obtain ⟨hwn, u, l, hu, hun, hreq, hm⟩ := hw
    obtain ⟨ndu, hndu⟩ := reach_in_graph hgs hci hrootg u hu
    have hreql : ndu.required = l := (hgs u ndu hndu).2.2 l hun hreq
    have hwg : ∃ ndw, lookupA (⟨p, w⟩ : Version) st.graph = some ndw := by
      rcases hci u ndu hndu ⟨p, w⟩ (by rw [hreql]; exact hm) with hg | hqe
      · exact hg
      · simp at hqe
    obtain ⟨ndw, hndw⟩ := hwg
    obtain ⟨v', hlv', hle⟩ := hmaxle ⟨p, w⟩ ndw hndw hwn
    have : v' = v := by
      have := hlv'.symm.trans hlook
      exact Option.some.inj this
    rw [← this]
    exact hle

theorem buildList_selects_max_edge_version_witness :
    EdgeVer reqsS2 ⟨"T", "9"⟩ "C" "2" :=
  (buildList_selects_max_edge_version ⟨"T", "9"⟩ reqsS2 20
    [⟨"T", "9"⟩, ⟨"B", "1"⟩, ⟨"C", "2"⟩] "C" "2" maxOrder_mxS (by rfl)
    (by decide) (by decide)).1

theorem maxOrder_mxW (t : String) : MaxOrder (mxW t) := by
  have htot : ∀ a b : String,
      (rkW t a < rkW t b ∨ (rkW t a = rkW t b ∧ strLe a b = true)) ∨
      (rkW t b < rkW t a ∨ (rkW t b = rkW t a ∧ strLe b a = true)) := by
    intro a b
    rcases Nat.lt_trichotomy (rkW t a) (rkW t b) with h | h | h
    · exact Or.inl (Or.inl h)
    · rcases strLe_total a b with hs | hs
      · exact Or.inl (Or.inr ⟨h, hs⟩)
      · exact Or.inr (Or.inr ⟨h.symm, hs⟩)
    · exact Or.inr (Or.inl h)
  have hanti : ∀ a b : String,
      (rkW t a < rkW t b ∨ (rkW t a = rkW t b ∧ strLe a b = true)) →
      (rkW t b < rkW t a ∨ (rkW t b = rkW t a ∧ strLe b a = true)) → a = b := by
    intro a b h1 h2
    rcases h1 with h1 | ⟨he1, hs1⟩
    · rcases h2 with h2 | ⟨he2, _⟩
      · omega
      · omega
    · rcases h2 with h2 | ⟨_, hs2⟩
      · omega
      · exact strLe_antisymm hs1 hs2
  have htr : ∀ a b c : String,
      (rkW t a < rkW t b ∨ (rkW t a = rkW t b ∧ strLe a b = true)) →
      (rkW t b < rkW t c ∨ (rkW t b = rkW t c ∧ strLe b c = true)) →
      (rkW t a < rkW t c ∨ (rkW t a = rkW t c ∧ strLe a c = true)) := by
    intro a b c h1 h2
    rcases h1 with h1 | ⟨he1, hs1⟩ <;> rcases h2 with h2 | ⟨he2, hs2⟩
    · exact Or.inl (by omega)
    · exact Or.inl (by omega)
    · exact Or.inl (by omega)
    · exact Or.inr ⟨he1.trans he2, strLe_trans hs1 hs2⟩
  refine ⟨?_, ?_, ?_⟩
  · intro a b
    unfold mxW
    by_cases h : rkW t a < rkW t b ∨ (rkW t a = rkW t b ∧ strLe a b = true) <;> simp [h]
  · intro a b
    unfold mxW
    by_cases h1 : rkW t a < rkW t b ∨ (rkW t a = rkW t b ∧ strLe a b = true) <;>
      by_cases h2 : rkW t b < rkW t a ∨ (rkW t b = rkW t a ∧ strLe b a = true) <;>
      simp [h1, h2]
    · exact (hanti a b h1 h2).symm
    · rcases htot a b with h | h
      · exact absurd h h1
      · exact absurd h h2
  · intro a b c
    unfold mxW
    by_cases h1 : rkW t a < rkW t b ∨ (rkW t a = rkW t b ∧ strLe a b = true) <;>
      by_cases h2 : rkW t b < rkW t c ∨ (rkW t b = rkW t c ∧ strLe b c = true)
    · simp [h1, h2, htr a b c h1 h2]
    · simp [h1, h2]
    · simp [h1, h2]
    · have hba := (htot a b).resolve_left h1
      have hcb := (htot b c).resolve_left h2
      have hac : ¬ (rkW t a < rkW t c ∨ (rkW t a = rkW t c ∧ strLe a c = true)) := by
        intro hac
        have hca := htr c b a hcb hba
        have heq : a = c := hanti a c hac hca
        subst heq
        exact h1 hcb
      simp [h1, h2, hac]

theorem mxW_contract_nine : MaxContractWeak (mxW "9") ⟨"T", "9"⟩ := by
  constructor
  · intro v
    by_cases h9 : v = "9"
    · subst h9; decide
    · by_cases hn : v = "none"
      · subst hn; decide
      · unfold mxW rkW
        simp [h9, hn, show ("none" : String) ≠ "9" from by decide]
  · intro v
    by_cases h9 : v = "9"
    · subst h9; decide
    · by_cases hn : v = "none"
      · subst hn; decide
      · unfold mxW rkW
        simp [h9, hn]

theorem contract_target_ne_none {mx : String → String → String} (hmo : MaxOrder mx)
    {target : Version} (hc : MaxContractWeak mx target) : target.version ≠ "none" := by
  intro h
  have h1 := hc.1 "a"
  have h2 := hc.2 "a"
  rw [h] at h2
  have h3 := hmo.comm "a" "none"
  rw [h1, h2] at h3
  exact absurd h3 (by decide)

theorem finalize_no_panic {target : Version} {reqs : Reqs} {st : ExpSt}
    (hmo : MaxOrder reqs.max) (hok : MinOK st) (hci : ChildrenInv st [])
    (hmaxle : MaxleInv reqs st)
    (hpin : lookupA target.path st.minM = some target.version) :
    resultPanics (finalize target reqs st) = false := by
  unfold finalize
  rw [if_neg (by rw [hpin]; simp)]
  have hall : st.minM.all (fun pv => entryOK reqs st target.path pv) = true := by
    rw [List.all_eq_true]
    intro pv hpv
    have hlp : lookupA pv.1 st.minM = some pv.2 :=
      lookupA_of_mem hok.1 (by simpa using hpv)
    obtain ⟨hvn, nd, hnd⟩ := hok.2 pv.1 pv.2 hlp
    unfold entryOK
    rw [hnd]
    simp only [Option.getD_some]
    rw [List.all_eq_true]
    intro r hr
    unfold reqOK
    by_cases hrn : r.version = "none"
    · rw [if_pos hrn]
    · rw [if_neg hrn]
      by_cases hrp : r.path = target.path
      · rw [if_pos hrp]
      · rw [if_neg hrp]
        have hrg : ∃ nd2, lookupA r st.graph = some nd2 := by
          rcases hci ⟨pv.1, pv.2⟩ nd hnd r hr with hg | he
          · exact hg
          · simp at he
        obtain ⟨nd2, hnd2⟩ := hrg
        obtain ⟨v', hlv', hle⟩ := hmaxle r nd2 hnd2 hrn
        rw [hlv']
        simp only [Option.getD_some]
        have hmxe : reqs.max v' r.version = v' := by
          rw [hmo.comm]
          exact hle
        simp [hmxe]
  rw [if_neg (by rw [hall]; simp)]
  rfl

theorem explore_start_pin {reqs : Reqs} {target : Version}
    {upg : Option (Version → Except String Version)} {fuel : Nat} {st : ExpSt}
    (hn : target.version ≠ "none")
    (hc : ∀ v, reqs.max target.version v = target.version)
    (h : explore reqs upg fuel [target] ⟨[], [], false⟩ = some st) :
    lookupA target.path st.minM = some target.version := by
  cases fuel with
  | zero => simp [explore] at h
  | succ n =>
    unfold explore at h
    simp only [lookupA] at h
    refine explore_minPin hc upg n _ _ st h ?_
    show lookupA target.path (processVertex reqs upg [] target).minM = some target.version
    rw [processVertex_minM]
    unfold updateMin
    rw [if_neg hn]
    simp [lookupA, setA]

/-- Counterexample to claim C4 as stated: the two documented Max contract
clauses alone do not make the finalizer aborts unreachable.  The
comparator mxCE satisfies both clauses for the root T at 9, yet it orders
1 and 2 inconsistently, and buildList on the provider reqsC4 hits the
second fatal check and panics. -/
theorem finalizer_panic_reachable_under_weak_contract :
    MaxContractWeak mxCE ⟨"T", "9"⟩ ∧
    BuildList ⟨"T", "9"⟩ reqsC4 20 =
      .error (.panicked "mistake: a version does not satisfy a requirement") := by
  refine ⟨⟨?_, ?_⟩, by rfl⟩
  · intro v
    unfold mxCE
    simp
  · intro v
    unfold mxCE
    by_cases hnv : v = "none"
    · subst hnv; simp
    · simp [hnv]

/-- Claim C4 (amended): both finalizer violations abort with a panic
rather than an error return; and when the comparator is additionally the
maximum of a linear order (it returns one of its arguments and is
commutative and associative), the two documented contract clauses make
both abort branches unreachable, for any upgrade hook and fuel. -/
theorem buildList_no_panic_under_order_max (target : Version) (reqs : Reqs)
    (upg : Option (Version → Except String Version)) (fuel : Nat)
    (hmo : MaxOrder reqs.max) (hc : MaxContractWeak reqs.max target) :
    resultPanics (buildList target reqs upg fuel) = false ∧
    (∀ st : ExpSt, (lookupA target.path st.minM).getD "" ≠ target.version →
      finalize target reqs st =
        .error (.panicked "mistake: chose a version other than the target")) ∧
    (∀ st : ExpSt, st.minM.all (fun pv => entryOK reqs st target.path pv) = false →
      (lookupA target.path st.minM).getD "" = target.version →
      finalize target reqs st =
        .error (.panicked "mistake: a version does not satisfy a requirement")) := by
  refine ⟨?_, ?_, ?_⟩
  · rcases he : explore reqs upg fuel [target] ⟨[], [], false⟩ with _ | st
    · unfold buildList
      rw [he]
      rfl
    · have hok : MinOK st := explore_minOK reqs upg fuel [target] _ st he minOK_init
      have hci : ChildrenInv st [] :=
        explore_childrenInv reqs upg fuel [target] _ st he
          (by intro x nd hx; simp [lookupA] at hx)
      have hmaxle : MaxleInv reqs st :=
        explore_maxle hmo upg fuel [target] _ st he
          (by intro x nd hx; simp [lookupA] at hx)
      have hpin : lookupA target.path st.minM = some target.version :=
        explore_start_pin (contract_target_ne_none hmo hc) hc.2 he
      have hfin := finalize_no_panic hmo hok hci hmaxle hpin
      unfold buildList
      simp only [he]
      by_cases hb : st.haveErr = true
      · rw [if_pos hb]
        rcases hw : errWalk st.graph fuel [target] [] with _ | oinfo
        · rfl
        · cases oinfo with
          | none => exact hfin
          | some info => rfl
      · rw [if_neg hb]
        exact hfin
  · intro st hne
    unfold finalize
    rw [if_pos hne]
  · intro st hall hroot
    unfold finalize
    rw [if_neg (by simp [hroot])]
    rw [if_pos (by simp [hall])]

theorem buildList_no_panic_under_order_max_witness :
    resultPanics (buildList ⟨"T", "9"⟩ reqsW none 20) = false :=
  (buildList_no_panic_under_order_max ⟨"T", "9"⟩ reqsW none 20
    (maxOrder_mxW "9") mxW_contract_nine).1

/-- Counterexample to claim C3 as stated: when a reachable module requires
the root itself, exploration still drains and records the failure, but the
backwards neededBy walk of the reporter cycles between the root and its
discoverer, so buildList never returns the typed error (out of fuel here;
the Go loop at mvs.go lines 161 to 166 never terminates). -/
theorem errPath_walk_diverges_on_root_cycle :
    ((explore reqsCyc none 200 [⟨"T", "9"⟩] ⟨[], [], false⟩).map ExpSt.haveErr =
      some true) ∧
    BuildList ⟨"T", "9"⟩ reqsCyc 200 = .error .outOfFuel :=
  ⟨rfl, rfl⟩

/-- Claim C3 (amended): a provider failure in required does not
short-circuit exploration: every vertex ever scheduled is still registered
in the final graph; and on the S4 graph buildList returns the typed build
list error wrapping E whose errPath is the neededBy chain root, A at 1,
B at 1.  (When some reachable module requires the root itself the
backwards walk cycles and no typed error is ever returned.) -/
theorem buildList_error_path_reported :
    (∀ (reqs : Reqs) (upg : Option (Version → Except String Version)) (fuel : Nat)
      (q : List Version) (st st' : ExpSt),
      explore reqs upg fuel q st = some st' →
      ∀ x ∈ q, ∃ nd, lookupA x st'.graph = some nd) ∧
    BuildList ⟨"T", "9"⟩ reqsS4 20 =
      .error (.buildListE ⟨"E", [⟨"T", "9"⟩, ⟨"A", "1"⟩, ⟨"B", "1"⟩], []⟩) :=
  ⟨fun reqs upg fuel q st st' h => explore_all_in_graph reqs upg fuel q st st' h,
    by rfl⟩

theorem buildList_error_path_reported_witness :
    (lookupA (⟨"T", "9"⟩ : Version)
      ((explore reqsS4 none 20 [⟨"T", "9"⟩] ⟨[], [], false⟩).getD
        ⟨[], [], false⟩).graph).isSome = true := by
  obtain ⟨nd, hnd⟩ := buildList_error_path_reported.1 reqsS4 none 20 [⟨"T", "9"⟩]
    ⟨[], [], false⟩
    ((explore reqsS4 none 20 [⟨"T", "9"⟩] ⟨[], [], false⟩).getD ⟨[], [], false⟩)
    (by rfl) ⟨"T", "9"⟩ (by decide)
  rw [hnd]
  rfl

theorem MaxOrder.le_total' {mx : String → String → String} (h : MaxOrder mx)
    (a b : String) : Le mx a b ∨ Le mx b a := by
  rcases h.choice a b with h1 | h1
  · exact Or.inr (h.le_of_eq_comm h1)
  · exact Or.inl h1

theorem excludeL_sup (rdeps : List (Version × List Version)) :
    ∀ (fuel : Nat) (ms : List Version) (exc exc' : List Version),
      excludeL rdeps fuel ms exc = some exc' → ∀ x ∈ exc, x ∈ exc' := by
  intro fuel
  induction fuel with
  | zero => intro ms exc exc' h; simp [excludeL] at h
  | succ n ih =>
    intro ms exc exc' h x hx
    cases ms with
    | nil =>
      simp [excludeL] at h
      rw [← h]
      exact hx
    | cons m ms2 =>
      unfold excludeL at h
      by_cases hm : m ∈ exc
      · rw [if_pos hm] at h
        exact ih _ _ _ h x hx
      · rw [if_neg hm] at h
        rcases h2 : excludeL rdeps n ((lookupA m rdeps).getD []) (exc ++ [m]) with _ | e2 <;>
          rw [h2] at h
        · exact Option.noConfusion h
        · exact ih _ _ _ h x (ih _ _ _ h2 x (List.mem_append_left _ hx))

theorem excludeL_head (rdeps : List (Version × List Version)) :
    ∀ (fuel : Nat) (m : Version) (ms : List Version) (exc exc' : List Version),
      excludeL rdeps fuel (m :: ms) exc = some exc' → m ∈ exc' := by
  intro fuel
  cases fuel with
  | zero => intro m ms exc exc' h; simp [excludeL] at h
  | succ n =>
    intro m ms exc exc' h
    unfold excludeL at h
    by_cases hm : m ∈ exc
    · rw [if_pos hm] at h
      exact excludeL_sup rdeps n ms exc exc' h m hm
    · rw [if_neg hm] at h
      rcases h2 : excludeL rdeps n ((lookupA m rdeps).getD []) (exc ++ [m]) with _ | e2 <;>
        rw [h2] at h
      · exact Option.noConfusion h
      · exact excludeL_sup rdeps n ms e2 exc' h m
          (excludeL_sup rdeps n _ _ e2 h2 m (List.mem_append_right _ (by simp)))

theorem addGo_inv (reqs : Reqs) (capM : List (String × String)) :
    ∀ (fuel : Nat) (task : AddTask) (st st' : DgSt),
      addGo reqs capM fuel task st = some st' → DgInv reqs capM st →
      DgInv reqs capM st' ∧ (∀ x ∈ st.added, x ∈ st'.added) ∧
      (∀ x ∈ st.excluded, x ∈ st'.excluded) ∧
      (∀ m0, task = AddTask.enter m0 → m0 ∈ st'.added) := by
  intro fuel
  induction fuel with
  | zero => intro task st st' h; simp [addGo] at h
  | succ n ih =>
    intro task st st' h hinv
    cases task with
    | enter m =>
      unfold addGo at h
      by_cases hm : m ∈ st.added
      · rw [if_pos hm] at h
        have he := Option.some.inj h
        subst he
        exact ⟨hinv, fun x hx => hx, fun x hx => hx,
          fun m0 heq => (AddTask.enter.inj heq) ▸ hm⟩
      · rw [if_neg hm] at h
        have hcase : ∀ exc, excludeL st.rdeps n [m] st.excluded = some exc →
            (⟨st.added ++ [m], exc, st.rdeps⟩ : DgSt) = st' →
            DgInv reqs capM st' ∧ (∀ x ∈ st.added, x ∈ st'.added) ∧
            (∀ x ∈ st.excluded, x ∈ st'.excluded) ∧
            (∀ m0, AddTask.enter m = AddTask.enter m0 → m0 ∈ st'.added) := by
          intro exc hex hst
          subst hst
          refine ⟨?_, ?_, ?_, ?_⟩
          · intro x hx hnex c hc
            rcases List.mem_append.1 hx with hx1 | hx2
            · refine hinv x hx1 ?_ c hc
              intro hxe
              exact hnex (excludeL_sup st.rdeps n [m] st.excluded exc hex x hxe)
            · simp at hx2
              subst hx2
              exact absurd (excludeL_head st.rdeps n x [] st.excluded exc hex) hnex
          · intro x hx
            exact List.mem_append_left _ hx
          · intro x hx
            exact excludeL_sup st.rdeps n [m] st.excluded exc hex x hx
          · intro m0 heq
            rw [← AddTask.enter.inj heq]
            exact List.mem_append_right _ (by simp)
        rcases hcap : lookupA m.path capM with _ | cv <;> simp only [hcap] at h
        · rcases hreq : reqs.required m with e | l <;> simp only [hreq] at h
          · rcases hex : excludeL st.rdeps n [m] st.excluded with _ | exc <;> simp only [hex] at h
            · exact Option.noConfusion h
            · exact hcase exc hex (Option.some.inj h)
          · have hinv1 : DgInv reqs capM ⟨st.added ++ [m], st.excluded, st.rdeps⟩ := by
              intro x hx hnex c hc
              rcases List.mem_append.1 hx with hx1 | hx2
              · exact hinv x hx1 hnex c hc
              · simp at hx2
                subst hx2
                rw [hcap] at hc
                exact Option.noConfusion hc
            obtain ⟨hi, ha, he, _⟩ := ih _ _ _ h hinv1
            refine ⟨hi, ?_, he, ?_⟩
            · intro x hx
              exact ha x (List.mem_append_left _ hx)
            · intro m0 heq
              rw [← AddTask.enter.inj heq]
              exact ha m (List.mem_append_right _ (by simp))
        · by_cases hg : reqs.max m.version cv ≠ cv
          · rw [if_pos hg] at h
            rcases hex : excludeL st.rdeps n [m] st.excluded with _ | exc <;> simp only [hex] at h
            · exact Option.noConfusion h
            · exact hcase exc hex (Option.some.inj h)
          · rw [if_neg hg] at h
            rcases hreq : reqs.required m with e | l <;> simp only [hreq] at h
            · rcases hex : excludeL st.rdeps n [m] st.excluded with _ | exc <;> simp only [hex] at h
              · exact Option.noConfusion h
              · exact hcase exc hex (Option.some.inj h)
            · have hinv1 : DgInv reqs capM ⟨st.added ++ [m], st.excluded, st.rdeps⟩ := by
                intro x hx hnex c hc
                rcases List.mem_append.1 hx with hx1 | hx2
                · exact hinv x hx1 hnex c hc
                · simp at hx2
                  subst hx2
                  rw [hcap] at hc
                  have hccv : c = cv := (Option.some.inj hc).symm
                  subst hccv
                  push_neg at hg
                  exact hg
              obtain ⟨hi, ha, he, _⟩ := ih _ _ _ h hinv1
              refine ⟨hi, ?_, he, ?_⟩
              · intro x hx
                exact ha x (List.mem_append_left _ hx)
              · intro m0 heq
                rw [← AddTask.enter.inj heq]
                exact ha m (List.mem_append_right _ (by simp))
    | loop m rs =>
      cases rs with
      | nil =>
        unfold addGo at h
        have he := Option.some.inj h
        subst he
        exact ⟨hinv, fun x hx => hx, fun x hx => hx,
          fun m0 heq => AddTask.noConfusion heq⟩
      | cons r rs2 =>
        unfold addGo at h
        rcases h1 : addGo reqs capM n (.enter r) st with _ | st2 <;> simp only [h1] at h
        · exact Option.noConfusion h
        · obtain ⟨hinv2, ha2, he2, _⟩ := ih _ _ _ h1 hinv
          by_cases hre : r ∈ st2.excluded
          · rw [if_pos hre] at h
            rcases hex : excludeL st2.rdeps n [m] st2.excluded with _ | exc <;> simp only [hex] at h
            · exact Option.noConfusion h
            · have hst := Option.some.inj h
              subst hst
              refine ⟨?_, ?_, ?_, fun m0 heq => AddTask.noConfusion heq⟩
              · intro x hx hnex c hc
                refine hinv2 x hx ?_ c hc
                intro hxe
                exact hnex (excludeL_sup st2.rdeps n [m] st2.excluded exc hex x hxe)
              · intro x hx
                exact ha2 x hx
              · intro x hx
                exact excludeL_sup st2.rdeps n [m] st2.excluded exc hex x (he2 x hx)
          · rw [if_neg hre] at h
            have hinv3 : DgInv reqs capM
                { st2 with rdeps := setA r ((lookupA r st2.rdeps).getD [] ++ [m]) st2.rdeps } :=
              fun x hx hnex c hc => hinv2 x hx hnex c hc
            obtain ⟨hi, ha, he, _⟩ := ih _ _ _ h hinv3
            exact ⟨hi, fun x hx => ha x (ha2 x hx), fun x hx => he x (he2 x hx),
              fun m0 heq => AddTask.noConfusion heq⟩

theorem dgClamp_path (reqs : Reqs) (capM : List (String × String)) (r p : Version) :
    (dgClamp reqs capM r p).path = p.path := by
  unfold dgClamp
  by_cases h : reqs.max ((lookupA r.path capM).getD "") r.version ≠
      ((lookupA r.path capM).getD "") ∧
      reqs.max p.version ((lookupA r.path capM).getD "") ≠ p.version
  · rw [if_pos h]
  · rw [if_neg h]

theorem dgFix_spec {reqs : Reqs} {capM : List (String × String)}
    (hprev : ∀ m p', reqs.previous m = .ok p' → p'.path = m.path) :
    ∀ (fuel : Nat) (r : Version) (st st2 : DgSt) (o : Option Version),
      dgFix reqs capM fuel r st = .ok (st2, o) → DgInv reqs capM st →
      DgInv reqs capM st2 ∧
      ∀ rr, o = some rr → rr.path = r.path ∧ (r ∈ st.added → rr ∈ st2.added) ∧
        rr ∉ st2.excluded := by
  intro fuel
  induction fuel with
  | zero => intro r st st2 o h; simp [dgFix] at h
  | succ n ih =>
    intro r st st2 o h hinv
    unfold dgFix at h
    by_cases hre : r ∈ st.excluded
    · rw [if_pos hre] at h
      rcases hp : reqs.previous r with e | p <;> simp only [hp] at h
      · exact Except.noConfusion h
      · by_cases hnone : (dgClamp reqs capM r p).version = "none"
        · rw [if_pos hnone] at h
          have hpair := Prod.mk.injEq .. ▸ Except.ok.inj h
          obtain ⟨hst, ho⟩ := hpair
          subst hst
          refine ⟨hinv, ?_⟩
          intro rr hrr
          rw [← ho] at hrr
          exact Option.noConfusion hrr
        · rw [if_neg hnone] at h
          rcases ha : addGo reqs capM n (.enter (dgClamp reqs capM r p)) st with _ | st3 <;>
            simp only [ha] at h
          · exact Except.noConfusion h
          · obtain ⟨hinv3, _, _, henter⟩ := addGo_inv reqs capM n _ st st3 ha hinv
            obtain ⟨hinv2, hrr⟩ := ih (dgClamp reqs capM r p) st3 st2 o h hinv3
            refine ⟨hinv2, ?_⟩
            intro rr ho
            obtain ⟨hpath, hadd, hexc⟩ := hrr rr ho
            refine ⟨?_, ?_, hexc⟩
            · rw [hpath, dgClamp_path]
              exact hprev r p hp
            · intro _
              exact hadd (henter _ rfl)
    · rw [if_neg hre] at h
      have hpair := Prod.mk.injEq .. ▸ Except.ok.inj h
      obtain ⟨hst, ho⟩ := hpair
      subst hst
      refine ⟨hinv, ?_⟩
      intro rr hrr
      rw [← ho] at hrr
      have hr := Option.some.inj hrr
      subst hr
      exact ⟨rfl, fun ha => ha, hre⟩

theorem capStep_preserve {reqs : Reqs} (hmo : MaxOrder reqs.max)
    (acc : List (String × String)) (d : Version) (p : String) (c tv : String)
    (hl : lookupA p acc = some c) (hle : Le reqs.max c tv) :
    ∃ c2, lookupA p (capStep reqs acc d) = some c2 ∧ Le reqs.max c2 tv := by
  unfold capStep
  by_cases hdp : d.path = p
  · subst hdp
    simp only [hl]
    by_cases hg : reqs.max c d.version ≠ d.version
    · rw [if_pos hg]
      refine ⟨d.version, lookupA_setA_self _ _ _, ?_⟩
      have hdc : Le reqs.max d.version c := by
        rcases hmo.le_total' c d.version with h1 | h1
        · exact absurd h1 hg
        · exact h1
      exact hmo.le_trans' hdc hle
    · rw [if_neg hg]
      exact ⟨c, hl, hle⟩
  · have hne : p ≠ d.path := fun he => hdp he.symm
    rcases hdl : lookupA d.path acc with _ | v <;> simp only [hdl]
    · refine ⟨c, ?_, hle⟩
      rw [lookupA_setA_ne _ _ _ _ hne]
      exact hl
    · by_cases hg : reqs.max v d.version ≠ d.version
      · rw [if_pos hg]
        refine ⟨c, ?_, hle⟩
        rw [lookupA_setA_ne _ _ _ _ hne]
        exact hl
      · rw [if_neg hg]
        exact ⟨c, hl, hle⟩

theorem capFold_preserve {reqs : Reqs} (hmo : MaxOrder reqs.max) :
    ∀ (ds : List Version) (acc : List (String × String)) (p : String) (c tv : String),
      lookupA p acc = some c → Le reqs.max c tv →
      ∃ c2, lookupA p (ds.foldl (capStep reqs) acc) = some c2 ∧ Le reqs.max c2 tv := by
  intro ds
  induction ds with
  | nil => intro acc p c tv hl hle; exact ⟨c, hl, hle⟩
  | cons d rest ih =>
    intro acc p c tv hl hle
    obtain ⟨c1, hl1, hle1⟩ := capStep_preserve hmo acc d p c tv hl hle
    simpa using ih (capStep reqs acc d) p c1 tv hl1 hle1

theorem capFold_mem {reqs : Reqs} (hmo : MaxOrder reqs.max) :
    ∀ (ds : List Version) (acc : List (String × String)) (t : Version), t ∈ ds →
      ∃ c, lookupA t.path (ds.foldl (capStep reqs) acc) = some c ∧
        Le reqs.max c t.version := by
  intro ds
  induction ds with
  | nil => intro acc t ht; simp at ht
  | cons d rest ih =>
    intro acc t ht
    rcases List.mem_cons.1 ht with he | hr
    · subst he
      have hstep : ∃ c1, lookupA t.path (capStep reqs acc t) = some c1 ∧
          Le reqs.max c1 t.version := by
        unfold capStep
        rcases hdl : lookupA t.path acc with _ | v <;> simp only [hdl]
        · exact ⟨t.version, lookupA_setA_self _ _ _, hmo.le_refl' _⟩
        · by_cases hg : reqs.max v t.version ≠ t.version
          · rw [if_pos hg]
            exact ⟨t.version, lookupA_setA_self _ _ _, hmo.le_refl' _⟩
          · rw [if_neg hg]
            push_neg at hg
            exact ⟨v, hdl, hg⟩
      obtain ⟨c1, hl1, hle1⟩ := hstep
      simpa using capFold_preserve hmo rest (capStep reqs acc t) t.path c1 t.version hl1 hle1
    · exact ih (capStep reqs acc d) t hr

theorem dgLoop_out {reqs : Reqs} {capM : List (String × String)} {target : Version}
    (hprev : ∀ m p', reqs.previous m = .ok p' → p'.path = m.path) :
    ∀ (fuel : Nat) (rs : List Version) (st : DgSt) (out res : List Version),
      dgLoop reqs capM fuel rs st out = .ok res →
      DgInv reqs capM st →
      (∀ x ∈ out, CapBound reqs capM target x) →
      ∀ x ∈ res, CapBound reqs capM target x := by
  intro fuel
  induction fuel with
  | zero => intro rs st out res h; simp [dgLoop] at h
  | succ n ih =>
    intro rs st out res h hinv hout
    cases rs with
    | nil =>
      simp [dgLoop] at h
      rw [← h]
      exact hout
    | cons r rs2 =>
      unfold dgLoop at h
      rcases ha : addGo reqs capM n (.enter r) st with _ | st1 <;> simp only [ha] at h
      · exact Except.noConfusion h
      · obtain ⟨hinv1, _, _, henter⟩ := addGo_inv reqs capM n _ st st1 ha hinv
        rcases hfx : dgFix reqs capM n r st1 with e | ⟨st2, o⟩ <;> simp only [hfx] at h
        · exact Except.noConfusion h
        · obtain ⟨hinv2, hrr⟩ := dgFix_spec hprev n r st1 st2 o hfx hinv1
          cases o with
          | none => exact ih rs2 st2 out res h hinv2 hout
          | some rr =>
            obtain ⟨hpath, hadd, hexc⟩ := hrr rr rfl
            have hbound : CapBound reqs capM target rr :=
              Or.inr (fun c hc => hinv2 rr (hadd (henter r rfl)) hexc c hc)
            refine ih rs2 st2 (out ++ [rr]) res h hinv2 ?_
            intro x hx
            rcases List.mem_append.1 hx with hx1 | hx2
            · exact hout x hx1
            · simp at hx2
              subst hx2
              exact hbound

/-- Counterexample to claim C7 as stated: a downgrade target on the root
path is not honoured.  Downgrading T to 5 leaves the output entry for
path T at the root version 9, and the comparator does not send 9 and 5
to 5. -/
theorem downgrade_root_path_target_not_capped :
    Downgrade ⟨"T", "9"⟩ reqsDG [⟨"T", "5"⟩] 50 =
      .ok [⟨"T", "9"⟩, ⟨"A", "3"⟩] ∧
    reqsDG.max "9" "5" ≠ "5" ∧ (⟨"T", "5"⟩ : Version) ∈ [(⟨"T", "5"⟩ : Version)] :=
  ⟨by rfl, by decide, by decide⟩

/-- Claim C7 (amended): for every downgrade target t whose path differs
from the root path, when Downgrade succeeds over an order-like comparator
whose previous calls preserve paths, every output entry after the leading
root entry that carries the path of t is at or below the requested
downgrade version: max(selected, t.version) = t.version.  Each
requirement is lowered through previous (or dropped) until it and its
closure fit under the per-path cap. -/
theorem downgrade_respects_targets (target : Version) (reqs : Reqs)
    (dg : List Version) (fuel : Nat) (out : List Version) (t : Version) (p v : String)
    (hmo : MaxOrder reqs.max)
    (hprev : ∀ m p', reqs.previous m = .ok p' → p'.path = m.path)
    (h : Downgrade target reqs dg fuel = .ok out)
    (ht : t ∈ dg) (htp : t.path ≠ target.path)
    (hmem : (⟨p, v⟩ : Version) ∈ out.tail) (hpt : p = t.path) :
    reqs.max v t.version = t.version := by
  unfold Downgrade at h
  rcases hreq : reqs.required target with e | list <;> simp only [hreq] at h
  · exact Except.noConfusion h
  · obtain ⟨c, hc, hcle⟩ := capFold_mem hmo dg
      (list.foldl (fun acc r => setA r.path r.version acc) []) t ht
    have hall := @dgLoop_out reqs (dgCaps reqs list dg) target hprev fuel list
      ⟨[], [], []⟩ [target] out h
      (by intro m hm; simp at hm)
      (by intro x hx; simp at hx; exact Or.inl hx)
    have hx := hall ⟨p, v⟩ (List.mem_of_mem_tail hmem)
    rcases hx with h1 | h2
    · have hppath : p = target.path := congrArg Version.path h1
      rw [hpt] at hppath
      exact absurd hppath htp
    · have hcx : lookupA (⟨p, v⟩ : Version).path (dgCaps reqs list dg) = some c := by
        show lookupA p (dgCaps reqs list dg) = some c
        rw [hpt]
        exact hc
      have hlev := h2 c hcx
      exact hmo.le_trans' hlev hcle

theorem downgrade_respects_targets_witness :
    reqsDG.max "1" "1" = "1" :=
  downgrade_respects_targets ⟨"T", "9"⟩ reqsDG [⟨"A", "1"⟩] 50
    [⟨"T", "9"⟩, ⟨"A", "1"⟩] ⟨"A", "1"⟩ "A" "1" maxOrder_mxS
    (fun m p' hp => by
      have := Except.ok.inj hp
      rw [← this])
    (by rfl) (by decide) (by decide) (by decide) rfl

theorem cacheReach_trans {cache : List (Version × List Version)} :
    ∀ {a b c : Version}, CacheReach cache a b → CacheReach cache b c →
      CacheReach cache a c := by
  intro a b c h1 h2
  induction h2 with
  | refl => exact h1
  | step y l z _ hl hz ih => exact CacheReach.step _ _ l _ ih hl hz

theorem cacheReach_mono {c1 c2 : List (Version × List Version)}
    (hpres : ∀ k l, lookupA k c1 = some l → lookupA k c2 = some l) :
    ∀ {a b : Version}, CacheReach c1 a b → CacheReach c2 a b := by
  intro a b h
  induction h with
  | refl => exact CacheReach.refl _
  | step y l z _ hl hz ih => exact CacheReach.step _ _ l _ ih (hpres _ _ hl) hz

theorem closed_reach {cache : List (Version × List Version)} {h : List Version}
    (hcl : ClosedExcept cache h []) :
    ∀ {x y : Version}, x ∈ h → CacheReach cache x y → y ∈ h := by
  intro x y hx hr
  induction hr with
  | refl => exact hx
  | step b l c _ hl hc ih =>
    refine hcl b ih (by simp) c ?_
    rw [hl]
    exact hc

theorem walkHave_spec (cache : List (Version × List Version)) :
    ∀ (fuel : Nat) (ms hset hset' P : List Version),
      walkHave cache fuel ms hset = .ok hset' →
      ClosedExcept cache hset P →
      (∀ x ∈ hset, x ∈ hset') ∧ (∀ m ∈ ms, m ∈ hset') ∧ ClosedExcept cache hset' P := by
  intro fuel
  induction fuel with
  | zero => intro ms hset hset' P h; simp [walkHave] at h
  | succ n ih =>
    intro ms hset hset' P h hcl
    cases ms with
    | nil =>
      simp [walkHave] at h
      rw [← h]
      exact ⟨fun x hx => hx, by simp, hcl⟩
    | cons m ms2 =>
      unfold walkHave at h
      by_cases hm : m ∈ hset
      · rw [if_pos hm] at h
        obtain ⟨hsub, hms, hcl2⟩ := ih ms2 hset hset' P h hcl
        refine ⟨hsub, ?_, hcl2⟩
        intro x hx
        rcases List.mem_cons.1 hx with he | hr
        · subst he
          exact hsub x hm
        · exact hms x hr
      · rw [if_neg hm] at h
        rcases h2 : walkHave cache n ((lookupA m cache).getD []) (hset ++ [m]) with e | hs2 <;>
          simp only [h2] at h
        · exact Except.noConfusion h
        · have hcl1 : ClosedExcept cache (hset ++ [m]) (m :: P) := by
            intro x hx hxp c hc
            rcases List.mem_append.1 hx with hx1 | hx2
            · exact List.mem_append_left _
                (hcl x hx1 (fun hp => hxp (List.mem_cons_of_mem _ hp)) c hc)
            · simp at hx2
              subst hx2
              exact absurd (List.mem_cons_self x P) hxp
          obtain ⟨hsub1, hch, hcl2⟩ := ih _ _ _ _ h2 hcl1
          have hcl3 : ClosedExcept cache hs2 P := by
            intro x hx hxp c hc
            by_cases hxm : x = m
            · subst hxm
              exact hch c hc
            · refine hcl2 x hx ?_ c hc
              intro hmem
              rcases List.mem_cons.1 hmem with he | hp
              · exact hxm he
              · exact hxp hp
          obtain ⟨hsub2, hms2, hcl4⟩ := ih ms2 hs2 hset' P h hcl3
          refine ⟨fun x hx => hsub2 x (hsub1 x (List.mem_append_left _ hx)), ?_, hcl4⟩
          intro x hx
          rcases List.mem_cons.1 hx with he | hr
          · subst he
            exact hsub2 x (hsub1 x (List.mem_append_right _ (by simp)))
          · exact hms2 x hr

theorem walkPosts_spec (reqs : Reqs) :
    ∀ (fuel : Nat) (ms : List Version) (cache : List (Version × List Version))
      (post : List Version) (cache' : List (Version × List Version)) (post' : List Version),
      walkPosts reqs fuel ms cache post = .ok (cache', post') →
      (∀ k l, lookupA k cache = some l → lookupA k cache' = some l) ∧
      ∃ del, post' = post ++ del ∧ ∀ y ∈ del, ∃ m ∈ ms, CacheReach cache' m y := by
  intro fuel
  induction fuel with
  | zero => intro ms cache post c' p' h; simp [walkPosts] at h
  | succ n ih =>
    intro ms cache post c' p' h
    cases ms with
    | nil =>
      simp [walkPosts] at h
      obtain ⟨h1, h2⟩ := h
      refine ⟨fun k l hl => h1 ▸ hl, [], ?_, by simp⟩
      rw [← h2]
      simp
    | cons m ms2 =>
      unfold walkPosts at h
      rcases hl : lookupA m cache with _ | l0 <;> simp only [hl] at h
      · rcases hreq : reqs.required m with e | l <;> simp only [hreq] at h
        · exact Except.noConfusion h
        · rcases h2 : walkPosts reqs n l (cache ++ [(m, l)]) post with e | cp2 <;>
            simp only [h2] at h
          · exact Except.noConfusion h
          · obtain ⟨c2, p2⟩ := cp2
            obtain ⟨pres1, del1, hdel1, hr1⟩ := ih l (cache ++ [(m, l)]) post c2 p2 h2
            obtain ⟨pres2, del2, hdel2, hr2⟩ := ih ms2 c2 (p2 ++ [m]) c' p' h
            have presc : ∀ k l2, lookupA k cache = some l2 → lookupA k c' = some l2 :=
              fun k l2 hk => pres2 k l2 (pres1 k l2 (lookupA_append_left _ hk))
            have hmc' : lookupA m c' = some l := by
              refine pres2 m l (pres1 m l ?_)
              rw [lookupA_append_right _ hl]
              exact lookupA_single_self
            refine ⟨presc, del1 ++ [m] ++ del2, ?_, ?_⟩
            · rw [hdel2, hdel1]
              simp
            · intro y hy
              rcases List.mem_append.1 hy with hy1 | hy2
              · rcases List.mem_append.1 hy1 with hy11 | hy12
                · obtain ⟨cnode, hcn, hreach⟩ := hr1 y hy11
                  refine ⟨m, List.mem_cons_self m ms2, ?_⟩
                  have hreach2 : CacheReach c' cnode y := cacheReach_mono pres2 hreach
                  exact cacheReach_trans
                    (CacheReach.step m m l cnode (CacheReach.refl m) hmc' hcn) hreach2
                · simp at hy12
                  subst hy12
                  exact ⟨y, List.mem_cons_self y ms2, CacheReach.refl y⟩
              · obtain ⟨m2, hm2, hreach⟩ := hr2 y hy2
                exact ⟨m2, List.mem_cons_of_mem m hm2, hreach⟩
      · obtain ⟨pres, del, hdel, hr⟩ := ih ms2 cache post c' p' h
        refine ⟨pres, del, hdel, ?_⟩
        intro y hy
        obtain ⟨m2, hm2, hre⟩ := hr y hy
        exact ⟨m2, List.mem_cons_of_mem m hm2, hre⟩

theorem buildMaxM_skip (reqs : Reqs) :
    ∀ (L : List Version) (acc : List (String × String)) (p : String),
      (∀ m ∈ L, m.path ≠ p) →
      lookupA p (L.foldl
        (fun acc m =>
          match lookupA m.path acc with
          | some v => setA m.path (reqs.max m.version v) acc
          | none => setA m.path m.version acc) acc) = lookupA p acc := by
  intro L
  induction L with
  | nil => intro acc p _; rfl
  | cons x xs ih =>
    intro acc p hne
    have hx : x.path ≠ p := hne x (List.mem_cons_self x xs)
    have hxs : ∀ y ∈ xs, y.path ≠ p := fun y hy => hne y (List.mem_cons_of_mem x hy)
    simp only [List.foldl_cons]
    rw [ih _ p hxs]
    rcases hl : lookupA x.path acc with _ | v <;> simp only [hl] <;>
      exact lookupA_setA_ne _ _ _ _ (fun he => hx he.symm)

theorem buildMaxM_lookup (reqs : Reqs) :
    ∀ (L : List Version) (acc : List (String × String)),
      (L.map Version.path).Nodup → (∀ m ∈ L, lookupA m.path acc = none) →
      ∀ m ∈ L, lookupA m.path (L.foldl
        (fun acc m =>
          match lookupA m.path acc with
          | some v => setA m.path (reqs.max m.version v) acc
          | none => setA m.path m.version acc) acc) = some m.version := by
  intro L
  induction L with
  | nil => intro acc _ _ m hm; simp at hm
  | cons x xs ih =>
    intro acc hnd hnone m hm
    have hxa : lookupA x.path acc = none := hnone x (List.mem_cons_self x xs)
    rw [List.map_cons, List.nodup_cons] at hnd
    have hxnot : x.path ∉ xs.map Version.path := hnd.1
    simp only [List.foldl_cons, hxa]
    rcases List.mem_cons.1 hm with he | hr
    · subst he
      rw [buildMaxM_skip reqs xs (setA m.path m.version acc) m.path
        (fun y hy hyp => hxnot (hyp ▸ List.mem_map_of_mem Version.path hy))]
      exact lookupA_setA_self _ _ _
    · refine ih (setA x.path x.version acc) hnd.2 ?_ m hr
      intro y hy
      have hyx : y.path ≠ x.path := by
        intro he
        exact hxnot (he ▸ List.mem_map_of_mem Version.path hy)
      rw [lookupA_setA_ne _ _ _ _ hyx]
      exact hnone y (List.mem_cons_of_mem x hy)

theorem baseLoop_acc (cache : List (Version × List Version))
    (maxM : List (String × String)) :
    ∀ (fuel : Nat) (ps : List String) (acc0 h0 : List Version)
      (acc h : List Version),
      baseLoop cache maxM fuel ps acc0 h0 = .ok (acc, h) →
      acc = acc0 ++ ps.map (fun p => (⟨p, (lookupA p maxM).getD ""⟩ : Version)) := by
  intro fuel
  induction fuel with
  | zero => intro ps acc0 h0 acc h hh; simp [baseLoop] at hh
  | succ n ih =>
    intro ps acc0 h0 acc h hh
    cases ps with
    | nil =>
      simp [baseLoop] at hh
      rw [← hh.1]
      simp
    | cons p ps2 =>
      unfold baseLoop at hh
      rcases hw : walkHave cache n [⟨p, (lookupA p maxM).getD ""⟩] h0 with e | h2 <;>
        simp only [hw] at hh
      · exact Except.noConfusion hh
      · rw [ih ps2 (acc0 ++ [⟨p, (lookupA p maxM).getD ""⟩]) h2 acc h hh]
        simp

theorem baseLoop_have (cache : List (Version × List Version))
    (maxM : List (String × String)) :
    ∀ (fuel : Nat) (ps : List String) (acc0 h0 : List Version)
      (acc h : List Version),
      baseLoop cache maxM fuel ps acc0 h0 = .ok (acc, h) →
      ClosedExcept cache h0 [] →
      (∀ x ∈ h0, x ∈ h) ∧ ClosedExcept cache h [] ∧
      ∀ p ∈ ps, (⟨p, (lookupA p maxM).getD ""⟩ : Version) ∈ h := by
  intro fuel
  induction fuel with
  | zero => intro ps acc0 h0 acc h hh; simp [baseLoop] at hh
  | succ n ih =>
    intro ps acc0 h0 acc h hh hcl
    cases ps with
    | nil =>
      simp [baseLoop] at hh
      rw [← hh.2]
      exact ⟨fun x hx => hx, hcl, by simp⟩
    | cons p ps2 =>
      unfold baseLoop at hh
      rcases hw : walkHave cache n [⟨p, (lookupA p maxM).getD ""⟩] h0 with e | h2 <;>
        simp only [hw] at hh
      · exact Except.noConfusion hh
      · obtain ⟨hsub1, hm1, hcl1⟩ := walkHave_spec cache n _ h0 h2 [] hw hcl
        obtain ⟨hsub2, hcl2, hps2⟩ := ih ps2 _ h2 acc h hh hcl1
        refine ⟨fun x hx => hsub2 x (hsub1 x hx), hcl2, ?_⟩
        intro q hq
        rcases List.mem_cons.1 hq with he | hr
        · subst he
          exact hsub2 _ (hm1 _ (by simp))
        · exact hps2 q hr

theorem extrasLoop_acc (cache : List (Version × List Version))
    (maxM : List (String × String)) :
    ∀ (fuel : Nat) (ms : List Version) (acc h0 : List Version)
      (acc' h' : List Version),
      extrasLoop cache maxM fuel ms acc h0 = .ok (acc', h') →
      (∀ m ∈ ms, m ∈ h0) → acc' = acc := by
  intro fuel
  induction fuel with
  | zero => intro ms acc h0 acc' h' hh; simp [extrasLoop] at hh
  | succ n ih =>
    intro ms acc h0 acc' h' hh hin
    cases ms with
    | nil =>
      simp [extrasLoop] at hh
      exact hh.1.symm
    | cons m ms2 =>
      unfold extrasLoop at hh
      by_cases h1 : (lookupA m.path maxM).getD "" ≠ m.version
      · rw [if_pos h1] at hh
        exact ih ms2 acc h0 acc' h' hh (fun x hx => hin x (List.mem_cons_of_mem m hx))
      · rw [if_neg h1] at hh
        rw [if_pos (hin m (List.mem_cons_self m ms2))] at hh
        exact ih ms2 acc h0 acc' h' hh (fun x hx => hin x (List.mem_cons_of_mem m hx))

/-- Counterexample to claim C5 as stated: Req walks requirement lists of
none vertices that buildList never fetched, so it can fail although the
build list succeeded: here required(B at none) fails with boom, the build
list is [T at 9, C at 1], and Req on exactly its paths returns the error
rather than the same set of versions. -/
theorem req_fails_on_none_requirement_error :
    BuildList ⟨"T", "9"⟩ reqsC5 20 = .ok [⟨"T", "9"⟩, ⟨"C", "1"⟩] ∧
    ([(⟨"T", "9"⟩ : Version), ⟨"C", "1"⟩].map Version.path = ["T", "C"]) ∧
    Req ⟨"T", "9"⟩ ["T", "C"] reqsC5 20 = .error (.plain "boom") :=
  ⟨rfl, rfl, rfl⟩

/-- Claim C5 (amended): whenever buildList succeeds and Req, called with
base equal to the paths of the build list, also succeeds, Req returns
exactly the versions of the build list, differing only in order (it
returns the path sorted permutation). -/
theorem req_returns_buildList_set (target : Version) (reqs : Reqs) (fuel : Nat)
    (L R : List Version)
    (hb : buildList target reqs none fuel = .ok L)
    (hr : Req target (L.map Version.path) reqs fuel = .ok R) :
    R.Perm L := by
  obtain ⟨hhead, hpair, _, htailpath, _⟩ := buildList_shape_aux target reqs none fuel L hb
  have hnd : (L.map Version.path).Nodup := by
    cases L with
    | nil => simp
    | cons a t =>
      have ha : a = target := by simpa using hhead
      simp only [List.map_cons, List.nodup_cons]
      constructor
      · intro hmem
        obtain ⟨x, hx, hxp⟩ := List.mem_map.1 hmem
        have hxt := htailpath x (by simpa using hx)
        rw [ha] at hxp
        exact hxt hxp
      · have hne : t.Pairwise (fun a b => a.path ≠ b.path) := by
          have := hpair
          simp only [List.tail_cons] at this
          exact this.imp (fun h => h.2)
        exact List.pairwise_map.mpr hne
  unfold Req at hr
  simp only [hb] at hr
  rcases hwp : walkPosts reqs fuel L [(target, [])] [] with e | cp <;> simp only [hwp] at hr
  · exact Except.noConfusion hr
  · obtain ⟨cache, post⟩ := cp
    rcases hbl : baseLoop cache (buildMaxM reqs L) fuel (L.map Version.path) [] [] with
      e | ah <;> simp only [hbl] at hr
    · exact Except.noConfusion hr
    · obtain ⟨minAcc, h1⟩ := ah
      rcases hel : extrasLoop cache (buildMaxM reqs L) fuel post.reverse minAcc h1 with
        e | ah2 <;> simp only [hel] at hr
      · exact Except.noConfusion hr
      · obtain ⟨minAcc2, h2⟩ := ah2
        have hR : R = sortByPath minAcc2 := (Except.ok.inj hr).symm
        have hmx : ∀ m ∈ L, lookupA m.path (buildMaxM reqs L) = some m.version := by
          intro m hm
          exact buildMaxM_lookup reqs L [] hnd (by intro x _; rfl) m hm
        have hminAcc : minAcc = L := by
          rw [baseLoop_acc cache (buildMaxM reqs L) fuel (L.map Version.path) [] [] minAcc
            h1 hbl]
          simp only [List.nil_append, List.map_map]
          have hpt : ∀ m ∈ L,
              ((fun p => (⟨p, (lookupA p (buildMaxM reqs L)).getD ""⟩ : Version)) ∘
                Version.path) m = id m := by
            intro m hm
            simp only [Function.comp_apply, id]
            rw [hmx m hm]
            rfl
          rw [List.map_congr_left hpt, List.map_id]
        obtain ⟨hbsub, hclosed, hbasein⟩ := baseLoop_have cache (buildMaxM reqs L) fuel
          (L.map Version.path) [] [] minAcc h1 hbl
          (by intro x hx; simp at hx)
        obtain ⟨_, del, hdel, hreach⟩ := walkPosts_spec reqs fuel L [(target, [])] []
          cache post hwp
        have hpostin : ∀ y ∈ post, y ∈ h1 := by
          intro y hy
          rw [hdel] at hy
          simp only [List.nil_append] at hy
          obtain ⟨m0, hm0, hre⟩ := hreach y hy
          have hm0in : m0 ∈ h1 := by
            have hin := hbasein m0.path (List.mem_map_of_mem Version.path hm0)
            rw [hmx m0 hm0] at hin
            exact hin
          exact closed_reach hclosed hm0in hre
        have hext : minAcc2 = minAcc :=
          extrasLoop_acc cache (buildMaxM reqs L) fuel post.reverse minAcc h1 minAcc2 h2
            hel (fun m hm => hpostin m (List.mem_reverse.1 hm))
        rw [hR, hext, hminAcc]
        exact List.perm_insertionSort byPath L

theorem req_returns_buildList_set_witness :
    ([(⟨"B", "1"⟩ : Version), ⟨"C", "2"⟩, ⟨"T", "9"⟩]).Perm
      [(⟨"T", "9"⟩ : Version), ⟨"B", "1"⟩, ⟨"C", "2"⟩] :=
  req_returns_buildList_set ⟨"T", "9"⟩ reqsS2 20
    [⟨"T", "9"⟩, ⟨"B", "1"⟩, ⟨"C", "2"⟩]
    [⟨"B", "1"⟩, ⟨"C", "2"⟩, ⟨"T", "9"⟩] (by rfl) (by rfl)

theorem upgradeFn_no_root_exemption_witness :
    upgradeFnOf (upgradeToM reqsS2 [⟨"R", "7"⟩]) ⟨"R", "1"⟩ = .ok ⟨"R", "7"⟩ := by
  have h := upgradeFn_no_root_exemption reqsS2 ⟨"R", "1"⟩ [⟨"R", "7"⟩] ⟨"R", "7"⟩
    (by decide) (by decide)
  exact h.1

end MVS
